import Mathlib

/-!
Shallow embedding of `src/util/generate-pnp-map.js` (the Plug'n'Play map
generator): the recursive package-store builder with peer-dependency
virtualization, the location index and prefix-lookup generator, and the
static emitter that splices the generated tables into a delivery template.

JavaScript `Map` objects are modelled as insertion-ordered association
lists (`JsMap`).  External collaborators (the package resolver, the
cryptographic digest primitive, and the `path`/`fs` helpers) are
parameters of the embedding, collected in `Env`.  The recursion of
`visit` is made total with an explicit fuel parameter:
`VisitError.fuelExhausted` marks a run that did not finish within the
given fuel, and `VisitError.invariantViolation` models a thrown
`invariant(...)` error.
-/

namespace PnpMap

/-- A JavaScript `Map`, modelled as an insertion-ordered association list. -/
abbrev JsMap (α β : Type) := List (α × β)

/-- `Map.prototype.get`. -/
def jsGet [DecidableEq α] {β : Type} : JsMap α β → α → Option β
  | [], _ => none
  | (k', v') :: m, k => if k' = k then some v' else jsGet m k

/-- `Map.prototype.set`: overwrite in place (keeping the original position of
an existing key) or append a fresh binding at the end. -/
def jsSet [DecidableEq α] {β : Type} : JsMap α β → α → β → JsMap α β
  | [], k, v => [(k, v)]
  | (k', v') :: m, k, v => if k' = k then (k, v) :: m else (k', v') :: jsSet m k v

/-- The `_reference` object of a resolved package: its on-disk location
(`null`/absent modelled as `none`, and the empty string is falsy in the
source's `if (!loc)` check) and its dependency patterns. -/
structure ResolvedRef where
  location : Option String
  dependencies : List String
  deriving Repr, DecidableEq

/-- A package as returned by `resolver.getStrictResolvedPattern`: `name`,
`version`, optional `main`, the key set of `peerDependencies` in declaration
order, and the optional `_reference` object. -/
structure ResolvedPkg where
  name : String
  version : String
  main : Option String
  peerDependencies : List String
  ref : Option ResolvedRef
  deriving Repr, DecidableEq

/-- The per-instance record stored for each `(name, reference)` identity. -/
structure PackageInformation where
  packageMainEntry : Option String
  packageLocation : String
  packageDependencies : JsMap String String
  deriving Repr, DecidableEq

/-- `PackageInformationStores`: outer key is the package name (`none` for the
synthetic root), inner key is the package reference (`none` for the root). -/
abbrev Stores := JsMap (Option String) (JsMap (Option String) PackageInformation)

abbrev Resolutions := JsMap String String

/-- External collaborators of the generator: the package resolver, the
cryptographic hex digest (the source's `crypto.createHash('sha1')` over the
concatenated update data), `path.sep`, `path.dirname`, the two-argument
`path.resolve`, and the `realpath` of `config.lockfileFolder`. -/
structure Env where
  resolver : String → ResolvedPkg
  sha1hex : String → String
  sep : Char
  dirname : String → String
  resolvePath : String → String → String
  lockfileFolderRealpath : String

/-- Outcome of a fuelled run of `visit`. -/
inductive VisitError where
  | fuelExhausted : VisitError
  | invariantViolation : String → VisitError
  deriving Repr, DecidableEq

/-- `getHashFrom`: feeding each datum to the incremental SHA-1 hasher is the
digest of the concatenation of all data. -/
def getHashFrom (E : Env) (data : List String) : String :=
  E.sha1hex (String.join data)

/-- The non-null result of `getResolverEntry`. -/
structure ResolverEntry where
  pkg : ResolvedPkg
  ref : ResolvedRef
  loc : String
  deriving Repr, DecidableEq

/-- `getResolverEntry`: `null` when the package has no `_reference` or the
reference has no (or an empty, hence falsy) `location`. -/
def getResolverEntry (E : Env) (pattern : String) : Option ResolverEntry :=
  let pkg := E.resolver pattern
  match pkg.ref with
  | none => none
  | some ref =>
    match ref.location with
    | none => none
    | some loc => if loc = "" then none else some ⟨pkg, ref, loc⟩

/-- The reference computed by pass 1 for a resolvable pattern: the package
version when there are no peer dependencies, and otherwise the virtual
reference `"pnp:" ++ hash` of `parentData ++ [name, version]`. -/
def pass1Reference (E : Env) (parentData : List String) (entry : ResolverEntry) : String :=
  if entry.pkg.peerDependencies = [] then entry.pkg.version
  else "pnp:" ++ getHashFrom E (parentData ++ [entry.pkg.name, entry.pkg.version])

/-- The location computed by pass 1 for a resolvable pattern: the resolver's
location, or, for a peer-dependency package, the aliased location
`path.resolve(path.dirname(loc), "pnp-" ++ hash)` (the `fs.symlink` call is
a side effect with no bearing on the produced data). -/
def pass1Location (E : Env) (parentData : List String) (entry : ResolverEntry) : String :=
  if entry.pkg.peerDependencies = [] then entry.loc
  else E.resolvePath (E.dirname entry.loc)
    ("pnp-" ++ getHashFrom E (parentData ++ [entry.pkg.name, entry.pkg.version]))

/-- Pass 1 of `visit`: record the final `(reference, location)` of every
resolvable seed pattern into the scope's two maps. -/
def pass1 (E : Env) (parentData : List String) :
    List String → Resolutions × Resolutions → Resolutions × Resolutions
  | [], acc => acc
  | pattern :: rest, (resolutions, locations) =>
    match getResolverEntry E pattern with
    | none => pass1 E parentData rest (resolutions, locations)
    | some entry =>
      pass1 E parentData rest
        (jsSet resolutions entry.pkg.name (pass1Reference E parentData entry),
         jsSet locations entry.pkg.name (pass1Location E parentData entry))

/-- The location normalization `loc.replace(/[\\\/]?$/, path.sep)`: the first
match of that anchored pattern replaces a single trailing slash or backslash
when one exists, and otherwise is the empty match at the end of the string,
so the separator is appended. -/
def normalizeLocation (sep : Char) (loc : String) : String :=
  match loc.data.getLast? with
  | some c => if c = '/' ∨ c = '\\' then ⟨loc.data.dropLast ++ [sep]⟩ else ⟨loc.data ++ [sep]⟩
  | none => ⟨[sep]⟩

/-- The defensive store creation of pass 2: if no per-name store exists yet,
an empty one is inserted. -/
def ensureStore (stores : Stores) (packageName : String) : Stores :=
  if (jsGet stores (some packageName)).isSome then stores
  else jsSet stores (some packageName) []

/-- Two-level lookup into the stores. -/
def storesGetInfo (stores : Stores) (name ref : Option String) :
    Option PackageInformation :=
  match jsGet stores name with
  | none => none
  | some store => jsGet store ref

/-- Two-level insertion into the stores (the JavaScript code mutates the inner
`Map` in place; the outer binding keeps its position). -/
def storesSetInfo (stores : Stores) (name ref : Option String)
    (info : PackageInformation) : Stores :=
  jsSet stores name (jsSet ((jsGet stores name).getD []) ref info)

/-- The non-peer subset of a package's direct dependencies.  (The source's
`!pkg ||` disjunct is unreachable: `getStrictResolvedPattern` never returns a
falsy package.) -/
def directDependenciesOf (E : Env) (entry : ResolverEntry) : List String :=
  entry.ref.dependencies.filter
    (fun pat => !(entry.pkg.peerDependencies.contains (E.resolver pat).name))

/-- The peer-dependency injection loop after the recursion has returned: for
each declared peer name, copy the enclosing scope's resolution when it is
truthy (present and non-empty). -/
def injectPeers (scopeResolutions : Resolutions) (peers : List String)
    (deps : Resolutions) : Resolutions :=
  peers.foldl
    (fun deps p =>
      match jsGet scopeResolutions p with
      | some r => if r = "" then deps else jsSet deps p r
      | none => deps)
    deps

/-- The fresh `PackageInformation` built in pass 2 before the recursion
(its `packageDependencies` starts out empty). -/
def freshInfo (sep : Char) (entry : ResolverEntry) (loc : String) :
    PackageInformation :=
  { packageMainEntry := entry.pkg.main
    packageLocation := normalizeLocation sep loc
    packageDependencies := [] }

/-- Pass 2 of `visit`, parameterized by the recursive call (`recur` is
`visit` at the next smaller fuel).  For each resolvable pattern: read the
pass-1 reference and location (a falsy value is the fatal
`invariant(...)` violation), skip patterns whose `(name, reference)` is
already in the store, and otherwise insert the fresh instance before
recursing over its non-peer direct dependencies, then assign the returned
resolutions as its dependency map and inject the peers. -/
def pass2 (E : Env)
    (recur : List String → List String → Stores →
      Except VisitError (Stores × Resolutions)) :
    List String → Resolutions → Resolutions → Stores →
      Except VisitError Stores
  | [], _, _, stores => .ok stores
  | pattern :: rest, resolutions, locations, stores =>
    match getResolverEntry E pattern with
    | none => pass2 E recur rest resolutions locations stores
    | some entry =>
      let packageName := entry.pkg.name
      match jsGet resolutions packageName with
      | none => .error (.invariantViolation
          "Package reference should have been computed during the pre-pass")
      | some packageReference =>
        if packageReference = "" then
          .error (.invariantViolation
            "Package reference should have been computed during the pre-pass")
        else
          match jsGet locations packageName with
          | none => .error (.invariantViolation
              "Package location should have been computed during the pre-pass")
          | some loc =>
            if loc = "" then
              .error (.invariantViolation
                "Package location should have been computed during the pre-pass")
            else
              let stores1 := ensureStore stores packageName
              match storesGetInfo stores1 (some packageName) (some packageReference) with
              | some _ => pass2 E recur rest resolutions locations stores1
              | none =>
                let info := freshInfo E.sep entry loc
                let stores2 :=
                  storesSetInfo stores1 (some packageName) (some packageReference) info
                match recur (directDependenciesOf E entry)
                    [packageName, packageReference] stores2 with
                | .error e => .error e
                | .ok (stores3, childResolutions) =>
                  let deps := injectPeers resolutions entry.pkg.peerDependencies
                    childResolutions
                  let stores4 :=
                    storesSetInfo stores3 (some packageName) (some packageReference)
                      { info with packageDependencies := deps }
                  pass2 E recur rest resolutions locations stores4

/-- The fuelled `visit`: pass 1 computes the scope bindings, pass 2 performs
the insertions and recursion, and the scope's resolutions are returned to the
caller.  (The source's `availablePackages` parameter is dead: it is never
read and never passed by any caller.) -/
def visit (E : Env) : Nat → List String → List String → Stores →
    Except VisitError (Stores × Resolutions)
  | 0, _, _, _ => .error .fuelExhausted
  | fuel + 1, seedPatterns, parentData, stores =>
    let rl := pass1 E parentData seedPatterns ([], [])
    match pass2 E (visit E fuel) seedPatterns rl.1 rl.2 stores with
    | .error e => .error e
    | .ok st => .ok (st, rl.1)

/-- `getPackageInformationStores`: run `visit` on the seed patterns starting
from an empty store, then add the synthetic root entry (`null → null`) whose
location is the normalized realpath of the lockfile folder and whose
dependency map is the top-level scope's resolutions. -/
def getPackageInformationStores (E : Env) (fuel : Nat)
    (seedPatterns : List String) : Except VisitError Stores :=
  match visit E fuel seedPatterns [] [] with
  | .error e => .error e
  | .ok (stores, rootResolutions) =>
    .ok (jsSet stores none
      [(none,
        { packageMainEntry := none
          packageLocation := normalizeLocation E.sep E.lockfileFolderRealpath
          packageDependencies := rootResolutions })])

/-! ### The static emitter (`generateMaps`) -/

def jsonHexDigit (n : Nat) : Char :=
  if n < 10 then Char.ofNat ('0'.toNat + n) else Char.ofNat ('a'.toNat + (n - 10))

/-- `JSON.stringify` escaping of a single character of a string literal. -/
def jsonEscapeChar (c : Char) : List Char :=
  if c = '"' then ['\\', '"']
  else if c = '\\' then ['\\', '\\']
  else if c = '\n' then ['\\', 'n']
  else if c = '\r' then ['\\', 'r']
  else if c = '\t' then ['\\', 't']
  else if c = '\x08' then ['\\', 'b']
  else if c = '\x0c' then ['\\', 'f']
  else if c.toNat < 32 then
    ['\\', 'u', '0', '0', jsonHexDigit (c.toNat / 16), jsonHexDigit (c.toNat % 16)]
  else [c]

/-- `JSON.stringify` of a string value. -/
def jsonStr (s : String) : String :=
  "\"" ++ String.mk (s.data.map jsonEscapeChar).flatten ++ "\""

/-- `JSON.stringify` of a `string | null` value. -/
def jsonOptStr : Option String → String
  | none => "null"
  | some s => jsonStr s

def generateDepsLines (deps : JsMap String String) : String :=
  deps.foldl
    (fun code kv => code ++ "        [" ++ jsonStr kv.1 ++ ", " ++ jsonStr kv.2 ++ "],\n")
    ""

/-- One `[reference, {...}]` entry of the emitted `packageInformationStores`
literal.  `packageMainEntry` is emitted only when truthy (present and
non-empty). -/
def generateInfoLines (refKey : Option String) (info : PackageInformation) : String :=
  "    [" ++ jsonOptStr refKey ++ ", \x7b\n"
  ++ "      packageLocation: " ++ jsonStr info.packageLocation ++ ",\n"
  ++ (match info.packageMainEntry with
      | some m => if m = "" then "" else "      packageMainEntry: " ++ jsonStr m ++ ",\n"
      | none => "")
  ++ "      packageDependencies: new Map([\n"
  ++ generateDepsLines info.packageDependencies
  ++ "      ]),\n"
  ++ "    \x7d],\n"

def generateStoreLines (nameKey : Option String)
    (store : JsMap (Option String) PackageInformation) : String :=
  "  [" ++ jsonOptStr nameKey ++ ", new Map([\n"
  ++ store.foldl (fun code kv => code ++ generateInfoLines kv.1 kv.2) ""
  ++ "  ])],\n"

/-- One entry of the emitted `locatorsByLocations` literal: the serialized
`{name, reference}` object for a named package, the `topLevelLocator`
binding for the root. -/
def generateLocatorLine (nameKey refKey : Option String)
    (info : PackageInformation) : String :=
  match nameKey with
  | some name =>
    "  [" ++ jsonStr info.packageLocation ++ ", \x7b\"name\":" ++ jsonStr name
      ++ ",\"reference\":" ++ jsonOptStr refKey ++ "\x7d],\n"
  | none => "  [" ++ jsonStr info.packageLocation ++ ", topLevelLocator],\n"

/-- `generateMaps`: serialize the stores and the inverse location map as
JavaScript `Map` literals. -/
def generateMaps (stores : Stores) : String :=
  "let packageInformationStores = new Map([\n"
  ++ stores.foldl (fun code s => code ++ generateStoreLines s.1 s.2) ""
  ++ "]);\n"
  ++ "\n"
  ++ "let locatorsByLocations = new Map([\n"
  ++ stores.foldl
      (fun code s => s.2.foldl (fun code kv => code ++ generateLocatorLine s.1 kv.1 kv.2) code)
      ""
  ++ "]);\n"

/-! ### The prefix lookup generator (`generateFindPackageLocator`) -/

/-- All `packageLocation` strings of the stores, in the nested iteration
order of the source's two `for ... of ....values()` loops.  (The source's
`packageLocation !== null` guard is vacuous: locations are strings.) -/
def allPackageLocations (stores : Stores) : List String :=
  (stores.map (fun s => s.2.map (fun kv => kv.2.packageLocation))).flatten

/-- `lengths.set(len, (lengths.get(len) || 0) + 1)`. -/
def bumpLength (m : JsMap Nat Nat) (len : Nat) : JsMap Nat Nat :=
  jsSet m len ((jsGet m len).getD 0 + 1)

/-- The `lengths` map: occurrence count of each distinct location length, in
first-encounter order. -/
def locationLengthCounts (stores : Stores) : JsMap Nat Nat :=
  (allPackageLocations stores).foldl (fun m loc => bumpLength m loc.length) []

/-- The comparator `(a, b) => b[1] - a[1]`, as the total preorder "`a` may
come before `b`". -/
def countGE (a b : Nat × Nat) : Prop := b.2 ≤ a.2

instance : DecidableRel countGE := fun a b => inferInstanceAs (Decidable (b.2 ≤ a.2))

/-- The frequency-ordered length table.  `Array.prototype.sort` is required
to be stable, so any stable sort with respect to the comparator's preorder
models it exactly; `List.insertionSort` is such a sort. -/
def sortedLengths (stores : Stores) : List (Nat × Nat) :=
  (locationLengthCounts stores).insertionSort countGE

def generateLengthCheck (len : Nat) : String :=
  "\n"
  ++ "  if (location.length >= " ++ toString len ++ " && location[" ++ toString len
    ++ " - 1] === path.sep)\n"
  ++ "    if (match = locatorsByLocations.get(location.substr(0, " ++ toString len ++ ")))\n"
  ++ "      return match;\n"

/-- The emitted source text of the `findPackageLocator` function. -/
def generateFindPackageLocator (stores : Stores) : String :=
  "exports.findPackageLocator = function findPackageLocator(location) \x7b\n"
  ++ "  let match;\n"
  ++ (sortedLengths stores).foldl (fun code e => code ++ generateLengthCheck e.1) ""
  ++ "\n"
  ++ "  return null;\n"
  ++ "\x7d;\n"

/-- A `{name, reference}` locator; the root is `topLevelLocator`, i.e.
`{name: null, reference: null}` in the delivery template. -/
structure PackageLocator where
  name : Option String
  reference : Option String
  deriving Repr, DecidableEq

/-- The locator written into the inverse index for one store entry: the
`{name, reference}` object for a named package, `topLevelLocator` (i.e.
`{name: null, reference: null}`) for the root. -/
def locatorFor (nameKey refKey : Option String) : PackageLocator :=
  match nameKey with
  | some name => ⟨some name, refKey⟩
  | none => ⟨none, none⟩

/-- The `locatorsByLocations` inverse index baked by `generateMaps`
(duplicate locations resolve to the last written locator, as for a JS `Map`
literal). -/
def locatorsByLocations (stores : Stores) : JsMap String PackageLocator :=
  stores.foldl
    (fun m s =>
      s.2.foldl (fun m kv => jsSet m kv.2.packageLocation (locatorFor s.1 kv.1)) m)
    []

/-- The behaviour of the emitted `findPackageLocator` function: try each
emitted length test in order; a test at length `L` fires when the input is at
least `L` long, its character at index `L - 1` is `path.sep` (for `L = 0`
the JavaScript index `-1` is `undefined` and never equals the separator),
and the prefix of length `L` is a key of `locatorsByLocations`. -/
def findPackageLocator (stores : Stores) (sep : Char) (location : String) :
    Option PackageLocator :=
  (sortedLengths stores).findSome?
    (fun e =>
      if 0 < e.1 ∧ e.1 ≤ location.length ∧ location.data.get? (e.1 - 1) = some sep then
        jsGet (locatorsByLocations stores) (⟨location.data.take e.1⟩ : String)
      else none)

/-! ### The template splicer (`generatePnpMap`) -/

/-- First-occurrence replacement, the semantics of
`template.replace(/literal/, repl)` for a pattern without special regex
characters beyond escaped literals and without the global flag.  When the
pattern does not occur, the input is returned unchanged.  (`$`-escape
sequences of the replacement string are not expanded here; none of the
claims depend on them.) -/
def replaceFirst (marker repl : List Char) : List Char → List Char
  | [] => if marker.isPrefixOf ([] : List Char) then repl else []
  | c :: rest =>
    if marker.isPrefixOf (c :: rest) then repl ++ (c :: rest).drop marker.length
    else c :: replaceFirst marker repl rest

/-- Whether the marker occurs anywhere in the text. -/
def containsMarker (marker : List Char) : List Char → Bool
  | [] => marker.isPrefixOf ([] : List Char)
  | c :: rest => marker.isPrefixOf (c :: rest) || containsMarker marker rest

/-- The substitution marker of the delivery template. -/
def pnpMarker : String := "$$SETUP_STATIC_TABLES();"

/-- The concatenated static tables spliced into the template. -/
def setupStaticTables (stores : Stores) : String :=
  generateMaps stores ++ generateFindPackageLocator stores

/-- `generatePnpMap`: build the stores, then replace the first occurrence of
the substitution marker of the delivery template `pnpApiTpl` with the
generated tables. -/
def generatePnpMap (E : Env) (fuel : Nat) (seedPatterns : List String)
    (pnpApiTpl : String) : Except VisitError String :=
  match getPackageInformationStores E fuel seedPatterns with
  | .error e => .error e
  | .ok stores =>
    .ok ⟨replaceFirst pnpMarker.data (setupStaticTables stores).data pnpApiTpl.data⟩

/-! ### Basic lemmas about `JsMap` -/

theorem jsGet_jsSet_self [DecidableEq α] {β : Type} (m : JsMap α β) (k : α) (v : β) :
    jsGet (jsSet m k v) k = some v := by
  induction m with
  | nil => simp [jsGet, jsSet]
  | cons kv m ih =>
    by_cases h : kv.1 = k
    · simp [jsGet, jsSet, h]
    · simpa [jsGet, jsSet, h] using ih

theorem jsGet_jsSet_ne [DecidableEq α] {β : Type} (m : JsMap α β) (k k' : α) (v : β)
    (h : k' ≠ k) : jsGet (jsSet m k v) k' = jsGet m k' := by
  induction m with
  | nil => simp [jsGet, jsSet, Ne.symm h]
  | cons kv m ih =>
    obtain ⟨k1, v1⟩ := kv
    by_cases hk : k1 = k
    · subst hk
      simp [jsGet, jsSet, Ne.symm h]
    · by_cases hk' : k1 = k'
      · simp [jsGet, jsSet, hk, hk', h]
      · simp [jsGet, jsSet, hk, hk', ih]

theorem mem_of_mem_jsSet [DecidableEq α] {β : Type} {m : JsMap α β} {k : α} {v : β}
    {p : α × β} (h : p ∈ jsSet m k v) : p = (k, v) ∨ p ∈ m := by
  induction m with
  | nil => simpa [jsSet] using h
  | cons kv m ih =>
    by_cases hk : kv.1 = k
    · simp only [jsSet, if_pos hk, List.mem_cons] at h
      rcases h with h | h
      · exact .inl h
      · exact .inr (List.mem_cons_of_mem _ h)
    · simp only [jsSet, if_neg hk, List.mem_cons] at h
      rcases h with h | h
      · exact .inr (h ▸ List.mem_cons_self _ _)
      · rcases ih h with h | h
        · exact .inl h
        · exact .inr (List.mem_cons_of_mem _ h)

theorem mem_of_jsGet_eq_some [DecidableEq α] {β : Type} {m : JsMap α β} {k : α} {v : β}
    (h : jsGet m k = some v) : (k, v) ∈ m := by
  induction m with
  | nil => simp [jsGet] at h
  | cons kv m ih =>
    obtain ⟨k1, v1⟩ := kv
    by_cases hk : k1 = k
    · subst hk
      have hv : v1 = v := by simpa [jsGet] using h
      subst hv
      exact List.mem_cons_self _ _
    · simp only [jsGet, if_neg hk] at h
      exact List.mem_cons_of_mem _ (ih h)

theorem jsGet_isSome_of_mem_keys [DecidableEq α] {β : Type} {m : JsMap α β} {k : α}
    (h : k ∈ m.map Prod.fst) : (jsGet m k).isSome := by
  induction m with
  | nil => simp at h
  | cons kv m ih =>
    by_cases hk : kv.1 = k
    · simp [jsGet, hk]
    · simp only [List.map_cons, List.mem_cons] at h
      rcases h with h | h
      · exact absurd h.symm hk
      · simpa [jsGet, hk] using ih h

theorem mem_keys_of_jsGet_isSome [DecidableEq α] {β : Type} {m : JsMap α β} {k : α}
    (h : (jsGet m k).isSome) : k ∈ m.map Prod.fst := by
  induction m with
  | nil => simp [jsGet] at h
  | cons kv m ih =>
    by_cases hk : kv.1 = k
    · simp [hk]
    · simp only [jsGet, if_neg hk] at h
      simp [ih h]

theorem mem_keys_jsSet [DecidableEq α] {β : Type} {m : JsMap α β} {k k' : α} {v : β} :
    k' ∈ (jsSet m k v).map Prod.fst ↔ k' = k ∨ k' ∈ m.map Prod.fst := by
  induction m with
  | nil => simp [jsSet]
  | cons kv m ih =>
    obtain ⟨k1, v1⟩ := kv
    by_cases hk : k1 = k
    · subst hk
      have hset : jsSet ((k1, v1) :: m) k1 v = (k1, v) :: m := by simp [jsSet]
      rw [hset]
      simp only [List.map_cons, List.mem_cons]
      tauto
    · simp only [jsSet, if_neg hk, List.map_cons, List.mem_cons, ih]
      tauto

theorem keys_nodup_jsSet [DecidableEq α] {β : Type} {m : JsMap α β} {k : α} {v : β}
    (h : (m.map Prod.fst).Nodup) : ((jsSet m k v).map Prod.fst).Nodup := by
  induction m with
  | nil => simp [jsSet]
  | cons kv m ih =>
    obtain ⟨k1, v1⟩ := kv
    by_cases hk : k1 = k
    · subst hk
      simpa [jsSet] using h
    · simp only [List.map_cons, List.nodup_cons] at h
      have h2 := ih h.2
      simp only [jsSet, if_neg hk, List.map_cons, List.nodup_cons]
      refine ⟨fun hmem => ?_, h2⟩
      rcases mem_keys_jsSet.1 hmem with h' | h'
      · exact hk h'
      · exact h.1 h'

theorem jsGet_of_mem_of_nodup [DecidableEq α] {β : Type} {m : JsMap α β} {k : α} {v : β}
    (hmem : (k, v) ∈ m) (hnd : (m.map Prod.fst).Nodup) : jsGet m k = some v := by
  induction m with
  | nil => simp at hmem
  | cons kv m ih =>
    simp only [List.map_cons, List.nodup_cons] at hnd
    rcases List.mem_cons.1 hmem with h | h
    · subst h
      simp [jsGet]
    · have hk : kv.1 ≠ k := by
        intro hk
        exact hnd.1 (hk ▸ List.mem_map_of_mem Prod.fst h)
      simp only [jsGet, if_neg hk]
      exact ih h hnd.2

/-! ### Small lemmas about `List.findSome?` -/

theorem findSome?_eq_none_of_all {α β : Type} {f : α → Option β} {l : List α}
    (h : ∀ x ∈ l, f x = none) : l.findSome? f = none := by
  induction l with
  | nil => rfl
  | cons a l ih =>
    have ha := h a (List.mem_cons_self _ _)
    simp only [List.findSome?, ha]
    exact ih fun x hx => h x (List.mem_cons_of_mem _ hx)

theorem exists_of_findSome?_eq_some {α β : Type} {f : α → Option β} {l : List α} {b : β}
    (h : l.findSome? f = some b) : ∃ a ∈ l, f a = some b := by
  induction l with
  | nil => simp [List.findSome?] at h
  | cons a l ih =>
    rcases ha : f a with _ | b'
    · simp only [List.findSome?, ha] at h
      rcases ih h with ⟨x, hx, hfx⟩
      exact ⟨x, List.mem_cons_of_mem _ hx, hfx⟩
    · simp only [List.findSome?, ha] at h
      exact ⟨a, List.mem_cons_self _ _, by rw [ha, h]⟩

/-! ### Lemmas about the store operations -/

theorem storesGetInfo_ensureStore (stores : Stores) (packageName : String)
    (n r : Option String) :
    storesGetInfo (ensureStore stores packageName) n r = storesGetInfo stores n r := by
  unfold ensureStore
  by_cases h : (jsGet stores (some packageName)).isSome
  · simp [h]
  · simp only [h, if_false, Bool.false_eq_true]
    by_cases hn : n = some packageName
    · subst hn
      rcases hg : jsGet stores (some packageName) with _ | s
      · simp [storesGetInfo, jsGet_jsSet_self, hg, jsGet]
      · simp [hg] at h
    · simp [storesGetInfo, jsGet_jsSet_ne _ _ _ _ hn]

theorem storesGetInfo_setInfo_self (stores : Stores) (n r : Option String)
    (info : PackageInformation) :
    storesGetInfo (storesSetInfo stores n r info) n r = some info := by
  simp [storesSetInfo, storesGetInfo, jsGet_jsSet_self]

theorem storesGetInfo_setInfo_ne (stores : Stores) (n r n' r' : Option String)
    (info : PackageInformation) (h : n' ≠ n ∨ r' ≠ r) :
    storesGetInfo (storesSetInfo stores n r info) n' r' = storesGetInfo stores n' r' := by
  by_cases hn : n' = n
  · subst hn
    have hr : r' ≠ r := h.resolve_left (by simp)
    simp only [storesSetInfo, storesGetInfo, jsGet_jsSet_self]
    rcases hg : jsGet stores n' with _ | s
    · simp [jsGet_jsSet_ne _ _ _ _ hr, hg, jsGet, Ne.symm hr]
    · simp [jsGet_jsSet_ne _ _ _ _ hr, hg]
  · simp [storesSetInfo, storesGetInfo, jsGet_jsSet_ne _ _ _ _ hn]

/-- Store extension: every `(name, reference)` identity present in the first
store is present in the second with the same record. -/
def StorePreserved (st st' : Stores) : Prop :=
  ∀ n r info, storesGetInfo st n r = some info → storesGetInfo st' n r = some info

theorem storePreserved_rfl (st : Stores) : StorePreserved st st := fun _ _ _ h => h

theorem storePreserved_trans {a b c : Stores} (h1 : StorePreserved a b)
    (h2 : StorePreserved b c) : StorePreserved a c :=
  fun n r i h => h2 n r i (h1 n r i h)

theorem storePreserved_setInfo_fresh {st : Stores} {n r : Option String}
    {info : PackageInformation} (h : storesGetInfo st n r = none) :
    StorePreserved st (storesSetInfo st n r info) := by
  intro n' r' i hi
  by_cases hk : n' = n ∧ r' = r
  · rw [hk.1, hk.2] at hi
    rw [h] at hi
    exact absurd hi (by simp)
  · rw [storesGetInfo_setInfo_ne]
    · exact hi
    · rcases Decidable.em (n' = n) with he | he
      · exact .inr fun hr => hk ⟨he, hr⟩
      · exact .inl he

/-- Well-formedness of the stores: no duplicate outer keys, no duplicate
inner keys.  This is automatic for JavaScript `Map`s and is preserved by the
embedding's `jsSet`. -/
def WFStores (st : Stores) : Prop :=
  (st.map Prod.fst).Nodup ∧ ∀ p ∈ st, (p.2.map Prod.fst).Nodup

theorem wfStores_ensureStore {st : Stores} (h : WFStores st) (packageName : String) :
    WFStores (ensureStore st packageName) := by
  unfold ensureStore
  by_cases hp : (jsGet st (some packageName)).isSome
  · simpa [hp] using h
  · simp only [hp, if_false, Bool.false_eq_true]
    refine ⟨keys_nodup_jsSet h.1, fun p hp' => ?_⟩
    rcases mem_of_mem_jsSet hp' with h' | h'
    · simp [h']
    · exact h.2 p h'

theorem wfStores_setInfo {st : Stores} (h : WFStores st) (n r : Option String)
    (info : PackageInformation) : WFStores (storesSetInfo st n r info) := by
  refine ⟨keys_nodup_jsSet h.1, fun p hp => ?_⟩
  rcases mem_of_mem_jsSet hp with h' | h'
  · subst h'
    refine keys_nodup_jsSet ?_
    rcases hg : jsGet st n with _ | s
    · simp
    · exact h.2 _ (mem_of_jsGet_eq_some hg)
  · exact h.2 p h'

/-- All `packageLocation` values of the stores end with the separator. -/
def LocationsNormalized (sep : Char) (st : Stores) : Prop :=
  ∀ p ∈ st, ∀ kv ∈ p.2, kv.2.packageLocation.data.getLast? = some sep

theorem normalizeLocation_getLast (sep : Char) (loc : String) :
    (normalizeLocation sep loc).data.getLast? = some sep := by
  unfold normalizeLocation
  rcases h : loc.data.getLast? with _ | c
  · simp
  · by_cases hc : c = '/' ∨ c = '\\' <;> simp [hc, List.getLast?_concat]

theorem locationsNormalized_ensureStore {sep : Char} {st : Stores}
    (h : LocationsNormalized sep st) (packageName : String) :
    LocationsNormalized sep (ensureStore st packageName) := by
  unfold ensureStore
  by_cases hp : (jsGet st (some packageName)).isSome
  · simpa [hp] using h
  · simp only [hp, if_false, Bool.false_eq_true]
    intro p hp' kv hkv
    rcases mem_of_mem_jsSet hp' with h' | h'
    · subst h'
      simp at hkv
    · exact h p h' kv hkv

theorem locationsNormalized_setInfo {sep : Char} {st : Stores}
    (h : LocationsNormalized sep st) {n r : Option String} {info : PackageInformation}
    (hinfo : info.packageLocation.data.getLast? = some sep) :
    LocationsNormalized sep (storesSetInfo st n r info) := by
  intro p hp kv hkv
  rcases mem_of_mem_jsSet hp with h' | h'
  · subst h'
    rcases mem_of_mem_jsSet hkv with h'' | h''
    · rw [h'']
      exact hinfo
    · rcases hg : jsGet st n with _ | s
      · rw [hg] at h''
        simp at h''
      · rw [hg] at h''
        exact h _ (mem_of_jsGet_eq_some hg) kv h''
  · exact h p h' kv hkv

/-! ### Lemmas about `getResolverEntry` and pass 1 -/

theorem getResolverEntry_spec {E : Env} {pat : String} {e : ResolverEntry}
    (h : getResolverEntry E pat = some e) :
    e.pkg = E.resolver pat ∧ e.loc ≠ "" := by
  simp only [getResolverEntry] at h
  rcases h1 : (E.resolver pat).ref with _ | ref
  · simp [h1] at h
  · simp only [h1] at h
    rcases h2 : ref.location with _ | loc
    · simp [h2] at h
    · simp only [h2] at h
      by_cases h3 : loc = ""
      · simp [h3] at h
      · rw [if_neg h3] at h
        have he : e = ⟨E.resolver pat, ref, loc⟩ := by
          injection h with h
          exact h.symm
        subst he
        exact ⟨rfl, h3⟩

theorem string_append_ne_empty (a b : String) (h : a ≠ "") : a ++ b ≠ "" := by
  intro hab
  apply h
  have hd := congrArg String.data hab
  rw [String.data_append] at hd
  have ha : a.data = [] := (List.append_eq_nil.1 hd).1
  cases a with
  | mk da =>
    have hda : da = [] := ha
    subst hda
    rfl

theorem pass1Reference_ne_empty {E : Env} {pd : List String} {e : ResolverEntry}
    (hv : e.pkg.version ≠ "") : pass1Reference E pd e ≠ "" := by
  unfold pass1Reference
  by_cases hp : e.pkg.peerDependencies = []
  · simpa [hp] using hv
  · simp only [hp, if_false, Bool.false_eq_true]
    exact string_append_ne_empty _ _ (by decide)

/-- Every binding of the pass-1 resolutions map comes from a resolvable seed
pattern of the scope, and its value has the exact shape computed by the
pre-pass (the version, or the virtual `pnp:` hash reference). -/
theorem pass1_res_shape (E : Env) (pd : List String) :
    ∀ (seeds : List String) (acc : Resolutions × Resolutions) (k r : String),
      jsGet (pass1 E pd seeds acc).1 k = some r →
      (∃ pat ∈ seeds, ∃ e, getResolverEntry E pat = some e ∧ e.pkg.name = k ∧
        r = pass1Reference E pd e) ∨ jsGet acc.1 k = some r := by
  intro seeds
  induction seeds with
  | nil => exact fun acc k r h => .inr h
  | cons p rest ih =>
    intro acc k r h
    obtain ⟨res, locs⟩ := acc
    rcases he : getResolverEntry E p with _ | e
    · simp only [pass1, he] at h
      rcases ih _ _ _ h with h' | h'
      · obtain ⟨pat, hpat, hrest⟩ := h'
        exact .inl ⟨pat, List.mem_cons_of_mem _ hpat, hrest⟩
      · exact .inr h'
    · simp only [pass1, he] at h
      rcases ih _ _ _ h with h' | h'
      · obtain ⟨pat, hpat, hrest⟩ := h'
        exact .inl ⟨pat, List.mem_cons_of_mem _ hpat, hrest⟩
      · by_cases hk : e.pkg.name = k
        · subst hk
          rw [jsGet_jsSet_self] at h'
          exact .inl ⟨p, List.mem_cons_self _ _, e, he, rfl, (Option.some_inj.1 h').symm⟩
        · rw [jsGet_jsSet_ne _ _ _ _ (Ne.symm hk)] at h'
          exact .inr h'

/-- Companion of `pass1_res_shape` for the locations map. -/
theorem pass1_loc_shape (E : Env) (pd : List String) :
    ∀ (seeds : List String) (acc : Resolutions × Resolutions) (k l : String),
      jsGet (pass1 E pd seeds acc).2 k = some l →
      (∃ pat ∈ seeds, ∃ e, getResolverEntry E pat = some e ∧ e.pkg.name = k ∧
        l = pass1Location E pd e) ∨ jsGet acc.2 k = some l := by
  intro seeds
  induction seeds with
  | nil => exact fun acc k l h => .inr h
  | cons p rest ih =>
    intro acc k l h
    obtain ⟨res, locs⟩ := acc
    rcases he : getResolverEntry E p with _ | e
    · simp only [pass1, he] at h
      rcases ih _ _ _ h with h' | h'
      · obtain ⟨pat, hpat, hrest⟩ := h'
        exact .inl ⟨pat, List.mem_cons_of_mem _ hpat, hrest⟩
      · exact .inr h'
    · simp only [pass1, he] at h
      rcases ih _ _ _ h with h' | h'
      · obtain ⟨pat, hpat, hrest⟩ := h'
        exact .inl ⟨pat, List.mem_cons_of_mem _ hpat, hrest⟩
      · by_cases hk : e.pkg.name = k
        · subst hk
          rw [jsGet_jsSet_self] at h'
          exact .inl ⟨p, List.mem_cons_self _ _, e, he, rfl, (Option.some_inj.1 h').symm⟩
        · rw [jsGet_jsSet_ne _ _ _ _ (Ne.symm hk)] at h'
          exact .inr h'

/-- Pass 1 never removes a binding from either accumulator map. -/
theorem pass1_mono (E : Env) (pd : List String) :
    ∀ (seeds : List String) (acc : Resolutions × Resolutions) (k : String),
      ((jsGet acc.1 k).isSome → (jsGet (pass1 E pd seeds acc).1 k).isSome) ∧
      ((jsGet acc.2 k).isSome → (jsGet (pass1 E pd seeds acc).2 k).isSome) := by
  intro seeds
  induction seeds with
  | nil => exact fun acc k => ⟨id, id⟩
  | cons p rest ih =>
    intro acc k
    obtain ⟨res, locs⟩ := acc
    rcases he : getResolverEntry E p with _ | e
    · simpa only [pass1, he] using ih (res, locs) k
    · simp only [pass1, he]
      refine ⟨fun h1 => ?_, fun h2 => ?_⟩
      · refine (ih _ k).1 ?_
        by_cases hk : e.pkg.name = k
        · subst hk
          simp [jsGet_jsSet_self]
        · rwa [jsGet_jsSet_ne _ _ _ _ (Ne.symm hk)]
      · refine (ih _ k).2 ?_
        by_cases hk : e.pkg.name = k
        · subst hk
          simp [jsGet_jsSet_self]
        · rwa [jsGet_jsSet_ne _ _ _ _ (Ne.symm hk)]

/-- Every resolvable seed pattern ends up bound in both pass-1 maps. -/
theorem pass1_domain (E : Env) (pd : List String) :
    ∀ (seeds : List String) (acc : Resolutions × Resolutions) (pat : String)
      (e : ResolverEntry), pat ∈ seeds → getResolverEntry E pat = some e →
      (jsGet (pass1 E pd seeds acc).1 e.pkg.name).isSome ∧
      (jsGet (pass1 E pd seeds acc).2 e.pkg.name).isSome := by
  intro seeds
  induction seeds with
  | nil => intro acc pat e hmem; simp at hmem
  | cons p rest ih =>
    intro acc pat e hmem he
    obtain ⟨res, locs⟩ := acc
    rcases List.mem_cons.1 hmem with hp | hp
    · subst hp
      simp only [pass1, he]
      constructor
      · exact (pass1_mono E pd rest _ _).1 (by simp [jsGet_jsSet_self])
      · exact (pass1_mono E pd rest _ _).2 (by simp [jsGet_jsSet_self])
    · rcases hpe : getResolverEntry E p with _ | e'
      · simpa only [pass1, hpe] using ih (res, locs) pat e hp he
      · simpa only [pass1, hpe] using ih _ pat e hp he

/-! ### Step equations for pass 2 -/

theorem pass2_nil (E : Env)
    (recur : List String → List String → Stores → Except VisitError (Stores × Resolutions))
    (res locs : Resolutions) (st : Stores) :
    pass2 E recur [] res locs st = .ok st := rfl

theorem pass2_cons_unresolved {E : Env}
    {recur : List String → List String → Stores → Except VisitError (Stores × Resolutions)}
    {p : String} {rest : List String} {res locs : Resolutions} {st : Stores}
    (he : getResolverEntry E p = none) :
    pass2 E recur (p :: rest) res locs st = pass2 E recur rest res locs st := by
  simp only [pass2, he]

theorem pass2_cons_skip {E : Env}
    {recur : List String → List String → Stores → Except VisitError (Stores × Resolutions)}
    {p : String} {rest : List String} {res locs : Resolutions} {st : Stores}
    {e : ResolverEntry} {r l : String} {i : PackageInformation}
    (he : getResolverEntry E p = some e)
    (hr : jsGet res e.pkg.name = some r) (hr0 : r ≠ "")
    (hl : jsGet locs e.pkg.name = some l) (hl0 : l ≠ "")
    (hex : storesGetInfo (ensureStore st e.pkg.name) (some e.pkg.name) (some r) = some i) :
    pass2 E recur (p :: rest) res locs st =
      pass2 E recur rest res locs (ensureStore st e.pkg.name) := by
  simp only [pass2, he, hr, hl, hex, if_neg hr0, if_neg hl0]

theorem pass2_cons_fresh {E : Env}
    {recur : List String → List String → Stores → Except VisitError (Stores × Resolutions)}
    {p : String} {rest : List String} {res locs : Resolutions} {st : Stores}
    {e : ResolverEntry} {r l : String}
    (he : getResolverEntry E p = some e)
    (hr : jsGet res e.pkg.name = some r) (hr0 : r ≠ "")
    (hl : jsGet locs e.pkg.name = some l) (hl0 : l ≠ "")
    (hfresh : storesGetInfo (ensureStore st e.pkg.name) (some e.pkg.name) (some r) = none) :
    pass2 E recur (p :: rest) res locs st =
      match recur (directDependenciesOf E e) [e.pkg.name, r]
          (storesSetInfo (ensureStore st e.pkg.name) (some e.pkg.name) (some r)
            (freshInfo E.sep e l)) with
      | .error err => .error err
      | .ok (st3, childRes) =>
        pass2 E recur rest res locs
          (storesSetInfo st3 (some e.pkg.name) (some r)
            { freshInfo E.sep e l with
              packageDependencies := injectPeers res e.pkg.peerDependencies childRes }) := by
  simp only [pass2, he, hr, hl, hfresh, if_neg hr0, if_neg hl0]

/-! ### The store invariants carried through pass 2 and `visit` -/

theorem storePreserved_ensureStore (st : Stores) (name : String) :
    StorePreserved st (ensureStore st name) := by
  intro n r i h
  rw [storesGetInfo_ensureStore]
  exact h

/-- The conjunction of the three store invariants: entries are preserved
(append-only identities), key well-formedness is preserved, and
normalized-location form is preserved. -/
def StoresInv (sep : Char) (st st' : Stores) : Prop :=
  StorePreserved st st' ∧ (WFStores st → WFStores st') ∧
    (LocationsNormalized sep st → LocationsNormalized sep st')

theorem storesInv_rfl (sep : Char) (st : Stores) : StoresInv sep st st :=
  ⟨storePreserved_rfl st, id, id⟩

theorem storesInv_trans {sep : Char} {a b c : Stores} (h1 : StoresInv sep a b)
    (h2 : StoresInv sep b c) : StoresInv sep a c :=
  ⟨storePreserved_trans h1.1 h2.1, fun h => h2.2.1 (h1.2.1 h), fun h => h2.2.2 (h1.2.2 h)⟩

theorem storesInv_ensureStore (sep : Char) (st : Stores) (name : String) :
    StoresInv sep st (ensureStore st name) :=
  ⟨storePreserved_ensureStore st name,
   fun h => wfStores_ensureStore h name,
   fun h => locationsNormalized_ensureStore h name⟩

theorem storesInv_setInfo_fresh {sep : Char} {st : Stores} {n r : Option String}
    {info : PackageInformation} (hfresh : storesGetInfo st n r = none)
    (hloc : info.packageLocation.data.getLast? = some sep) :
    StoresInv sep st (storesSetInfo st n r info) :=
  ⟨storePreserved_setInfo_fresh hfresh,
   fun h => wfStores_setInfo h n r info,
   fun h => locationsNormalized_setInfo h hloc⟩

theorem pass2_invariants (E : Env)
    (recur : List String → List String → Stores → Except VisitError (Stores × Resolutions))
    (hrec : ∀ seeds pd st out, recur seeds pd st = .ok out → StoresInv E.sep st out.1) :
    ∀ (seeds : List String) (res locs : Resolutions) (st st' : Stores),
      pass2 E recur seeds res locs st = .ok st' → StoresInv E.sep st st' := by
  intro seeds
  induction seeds with
  | nil =>
    intro res locs st st' h
    have hst : st = st' := by simpa [pass2] using h
    subst hst
    exact storesInv_rfl E.sep st
  | cons p rest ih =>
    intro res locs st st' h
    rcases he : getResolverEntry E p with _ | e
    · rw [pass2_cons_unresolved he] at h
      exact ih _ _ _ _ h
    · rcases hr : jsGet res e.pkg.name with _ | r
      · simp [pass2, he, hr] at h
      · by_cases hr0 : r = ""
        · subst hr0
          simp [pass2, he, hr] at h
        · rcases hl : jsGet locs e.pkg.name with _ | l
          · simp [pass2, he, hr, hr0, hl] at h
          · by_cases hl0 : l = ""
            · subst hl0
              simp [pass2, he, hr, hr0, hl] at h
            · rcases hex : storesGetInfo (ensureStore st e.pkg.name) (some e.pkg.name)
                  (some r) with _ | i
              · rw [pass2_cons_fresh he hr hr0 hl hl0 hex] at h
                rcases hv : recur (directDependenciesOf E e) [e.pkg.name, r]
                    (storesSetInfo (ensureStore st e.pkg.name) (some e.pkg.name) (some r)
                      (freshInfo E.sep e l)) with err | out
                · rw [hv] at h
                  simp at h
                · obtain ⟨st3, childRes⟩ := out
                  rw [hv] at h
                  have inv1 := storesInv_ensureStore E.sep st e.pkg.name
                  have inv2 := @storesInv_setInfo_fresh E.sep _ _ _
                    (freshInfo E.sep e l) hex (normalizeLocation_getLast E.sep l)
                  have inv3 := hrec _ _ _ _ hv
                  have inv13 : StoresInv E.sep st st3 := storesInv_trans (storesInv_trans inv1 inv2) inv3
                  have inv4 : StoresInv E.sep st
                      (storesSetInfo st3 (some e.pkg.name) (some r)
                        { freshInfo E.sep e l with
                          packageDependencies :=
                            injectPeers res e.pkg.peerDependencies childRes }) := by
                    refine ⟨?_, ?_, ?_⟩
                    · intro n' r' i' hi'
                      by_cases hk : n' = some e.pkg.name ∧ r' = some r
                      · exfalso
                        have hge := storesGetInfo_ensureStore st e.pkg.name
                          (some e.pkg.name) (some r)
                        rw [hex] at hge
                        rw [hk.1, hk.2, ← hge] at hi'
                        simp at hi'
                      · rw [storesGetInfo_setInfo_ne]
                        · exact inv13.1 n' r' i' hi'
                        · rcases Decidable.em (n' = some e.pkg.name) with heq | heq
                          · exact .inr fun hrr => hk ⟨heq, hrr⟩
                          · exact .inl heq
                    · intro hwf
                      exact wfStores_setInfo (inv13.2.1 hwf) _ _ _
                    · intro hn
                      exact locationsNormalized_setInfo (inv13.2.2 hn)
                        (normalizeLocation_getLast E.sep l)
                  exact storesInv_trans inv4 (ih _ _ _ _ h)
              · rw [pass2_cons_skip he hr hr0 hl hl0 hex] at h
                exact storesInv_trans (storesInv_ensureStore E.sep st e.pkg.name) (ih _ _ _ _ h)

theorem visit_invariants (E : Env) :
    ∀ (n : Nat) (seeds pd : List String) (st : Stores) (out : Stores × Resolutions),
      visit E n seeds pd st = .ok out → StoresInv E.sep st out.1 := by
  intro n
  induction n with
  | zero =>
    intro seeds pd st out h
    simp [visit] at h
  | succ n ih =>
    intro seeds pd st out h
    simp only [visit] at h
    rcases hp : pass2 E (visit E n) seeds (pass1 E pd seeds ([], [])).1
        (pass1 E pd seeds ([], [])).2 st with err | st'
    · rw [hp] at h
      simp at h
    · rw [hp] at h
      have hout : out = (st', (pass1 E pd seeds ([], [])).1) := by
        simpa using h.symm
      subst hout
      exact pass2_invariants E (visit E n) (fun seeds' pd' st'' out' h' => ih seeds' pd' st'' out' h') seeds _ _ st st' hp

/-! ### Lemmas about the peer-dependency injection -/

theorem injectPeers_cons (res : Resolutions) (p : String) (rest : List String)
    (deps : Resolutions) :
    injectPeers res (p :: rest) deps =
      injectPeers res rest
        (match jsGet res p with
         | some r => if r = "" then deps else jsSet deps p r
         | none => deps) := rfl

theorem injectPeers_get_not_mem :
    ∀ (peers : List String) (res deps : Resolutions) (q : String), q ∉ peers →
      jsGet (injectPeers res peers deps) q = jsGet deps q := by
  intro peers
  induction peers with
  | nil => intro res deps q _; rfl
  | cons p rest ih =>
    intro res deps q hq
    have hqr : q ∉ rest := fun h => hq (List.mem_cons_of_mem _ h)
    have hpq : p ≠ q := fun h => hq (h ▸ List.mem_cons_self _ _)
    rw [injectPeers_cons, ih _ _ _ hqr]
    rcases h : jsGet res p with _ | r
    · rfl
    · by_cases hr : r = ""
      · simp [hr]
      · simp [hr, jsGet_jsSet_ne _ _ _ _ (Ne.symm hpq)]

theorem injectPeers_get_none :
    ∀ (peers : List String) (res deps : Resolutions) (q : String), jsGet res q = none →
      jsGet (injectPeers res peers deps) q = jsGet deps q := by
  intro peers
  induction peers with
  | nil => intro res deps q _; rfl
  | cons p rest ih =>
    intro res deps q hq
    rw [injectPeers_cons, ih _ _ _ hq]
    rcases h : jsGet res p with _ | r
    · rfl
    · by_cases hpq : p = q
      · subst hpq
        rw [h] at hq
        exact absurd hq (by simp)
      · by_cases hr : r = ""
        · simp [hr]
        · simp [hr, jsGet_jsSet_ne _ _ _ _ (Ne.symm hpq)]

theorem injectPeers_get_some :
    ∀ (peers : List String) (res deps : Resolutions) (q r : String), q ∈ peers →
      jsGet res q = some r → r ≠ "" →
      jsGet (injectPeers res peers deps) q = some r := by
  intro peers
  induction peers with
  | nil => intro res deps q r hmem; simp at hmem
  | cons p rest ih =>
    intro res deps q r hmem hget hr0
    rw [injectPeers_cons]
    rcases List.mem_cons.1 hmem with hp | hp
    · subst hp
      by_cases hqr : q ∈ rest
      · exact ih _ _ _ _ hqr hget hr0
      · rw [injectPeers_get_not_mem _ _ _ _ hqr]
        simp [hget, hr0, jsGet_jsSet_self]
    · exact ih _ _ _ _ hp hget hr0

/-- Every name bound in a scope's returned resolutions comes from one of the
scope's seed patterns that resolved successfully. -/
theorem visit_res_names (E : Env) (n : Nat) (seeds pd : List String) (st : Stores)
    (out : Stores × Resolutions) (h : visit E n seeds pd st = .ok out) (k r : String)
    (hk : jsGet out.2 k = some r) :
    ∃ pat ∈ seeds, ∃ e, getResolverEntry E pat = some e ∧ e.pkg.name = k := by
  cases n with
  | zero => simp [visit] at h
  | succ n =>
    simp only [visit] at h
    rcases hp : pass2 E (visit E n) seeds (pass1 E pd seeds ([], [])).1
        (pass1 E pd seeds ([], [])).2 st with err | st'
    · rw [hp] at h
      simp at h
    · rw [hp] at h
      have hout : out = (st', (pass1 E pd seeds ([], [])).1) := by simpa using h.symm
      subst hout
      rcases pass1_res_shape E pd seeds ([], []) k r hk with hs | hs
      · obtain ⟨pat, hpat, e, he, hname, _⟩ := hs
        exact ⟨pat, hpat, e, he, hname⟩
      · simp [jsGet] at hs

/-- A pattern kept by the direct-dependency filter does not resolve to a
peer-dependency name. -/
theorem directDependencies_not_peer (E : Env) (entry : ResolverEntry) (pat : String)
    (h : pat ∈ directDependenciesOf E entry) :
    (E.resolver pat).name ∉ entry.pkg.peerDependencies := by
  unfold directDependenciesOf at h
  have hf := List.of_mem_filter h
  intro hmem
  simp at hf
  exact hf hmem

/-! ### Skipping an unresolvable pattern (for the omission property) -/

theorem pass1_skip (E : Env) (pd : List String) {p : String}
    (he : getResolverEntry E p = none) :
    ∀ (pre post : List String) (acc : Resolutions × Resolutions),
      pass1 E pd (pre ++ p :: post) acc = pass1 E pd (pre ++ post) acc := by
  intro pre
  induction pre with
  | nil =>
    intro post acc
    obtain ⟨res, locs⟩ := acc
    simp only [List.nil_append, pass1, he]
  | cons a pre ih =>
    intro post acc
    obtain ⟨res, locs⟩ := acc
    rcases ha : getResolverEntry E a with _ | e
    · simp only [List.cons_append, pass1, ha]
      exact ih post _
    · simp only [List.cons_append, pass1, ha]
      exact ih post _

theorem pass2_skip (E : Env)
    (recur : List String → List String → Stores → Except VisitError (Stores × Resolutions))
    {p : String} (he : getResolverEntry E p = none) :
    ∀ (pre post : List String) (res locs : Resolutions) (st : Stores),
      pass2 E recur (pre ++ p :: post) res locs st =
        pass2 E recur (pre ++ post) res locs st := by
  intro pre
  induction pre with
  | nil =>
    intro post res locs st
    simpa only [List.nil_append] using pass2_cons_unresolved he
  | cons a pre ih =>
    intro post res locs st
    rw [List.cons_append, List.cons_append]
    rcases ha : getResolverEntry E a with _ | e
    · rw [pass2_cons_unresolved ha, pass2_cons_unresolved ha]
      exact ih post res locs st
    · rcases hr : jsGet res e.pkg.name with _ | r
      · simp only [pass2, ha, hr]
      · by_cases hr0 : r = ""
        · subst hr0
          simp [pass2, ha, hr]

        · rcases hl : jsGet locs e.pkg.name with _ | l
          · simp only [pass2, ha, hr, if_neg hr0, hl]
          · by_cases hl0 : l = ""
            · subst hl0
              simp [pass2, ha, hr, hr0, hl]
            · rcases hex : storesGetInfo (ensureStore st e.pkg.name) (some e.pkg.name)
                  (some r) with _ | i
              · rw [pass2_cons_fresh ha hr hr0 hl hl0 hex,
                  pass2_cons_fresh ha hr hr0 hl hl0 hex]
                rcases hv : recur (directDependenciesOf E e) [e.pkg.name, r]
                    (storesSetInfo (ensureStore st e.pkg.name) (some e.pkg.name) (some r)
                      (freshInfo E.sep e l)) with err | out
                · rfl
                · obtain ⟨st3, cr⟩ := out
                  exact ih post res locs _
              · rw [pass2_cons_skip ha hr hr0 hl hl0 hex,
                  pass2_cons_skip ha hr hr0 hl hl0 hex]
                exact ih post res locs _

/-! ### The pass-2 invariants are unreachable under a healthy resolver -/

theorem pass2_no_invariant (E : Env)
    (recur : List String → List String → Stores → Except VisitError (Stores × Resolutions))
    (hrec : ∀ seeds pd st msg, recur seeds pd st ≠ .error (.invariantViolation msg)) :
    ∀ (seeds : List String) (res locs : Resolutions) (st : Stores),
      (∀ pat e, pat ∈ seeds → getResolverEntry E pat = some e →
        (∃ r, jsGet res e.pkg.name = some r ∧ r ≠ "") ∧
        (∃ l, jsGet locs e.pkg.name = some l ∧ l ≠ "")) →
      ∀ msg, pass2 E recur seeds res locs st ≠ .error (.invariantViolation msg) := by
  intro seeds
  induction seeds with
  | nil =>
    intro res locs st _ msg h
    simp [pass2] at h
  | cons p rest ih =>
    intro res locs st hdom msg h
    have hdomRest : ∀ pat e, pat ∈ rest → getResolverEntry E pat = some e →
        (∃ r, jsGet res e.pkg.name = some r ∧ r ≠ "") ∧
        (∃ l, jsGet locs e.pkg.name = some l ∧ l ≠ "") :=
      fun pat e hmem hpe => hdom pat e (List.mem_cons_of_mem _ hmem) hpe
    rcases he : getResolverEntry E p with _ | e
    · rw [pass2_cons_unresolved he] at h
      exact ih res locs st hdomRest msg h
    · obtain ⟨⟨r, hr, hr0⟩, ⟨l, hl, hl0⟩⟩ := hdom p e (List.mem_cons_self _ _) he
      rcases hex : storesGetInfo (ensureStore st e.pkg.name) (some e.pkg.name)
          (some r) with _ | i
      · rw [pass2_cons_fresh he hr hr0 hl hl0 hex] at h
        rcases hv : recur (directDependenciesOf E e) [e.pkg.name, r]
            (storesSetInfo (ensureStore st e.pkg.name) (some e.pkg.name) (some r)
              (freshInfo E.sep e l)) with err | out
        · rw [hv] at h
          have herr : err = .invariantViolation msg := by simpa using h
          subst herr
          exact hrec _ _ _ _ hv
        · obtain ⟨st3, cr⟩ := out
          rw [hv] at h
          exact ih res locs _ hdomRest msg h
      · rw [pass2_cons_skip he hr hr0 hl hl0 hex] at h
        exact ih res locs _ hdomRest msg h

theorem pass1Location_ne_empty {E : Env} {pd : List String} {e : ResolverEntry}
    (hl : e.loc ≠ "") (H2 : ∀ d s, E.resolvePath d s ≠ "") :
    pass1Location E pd e ≠ "" := by
  unfold pass1Location
  by_cases hp : e.pkg.peerDependencies = []
  · simpa [hp] using hl
  · simp only [hp, if_false, Bool.false_eq_true]
    exact H2 _ _

/-- Under a resolver that always reports a non-empty version, and a
`path.resolve` that always produces a non-empty path, `visit` can never
return an `invariant(...)` violation at any fuel. -/
theorem visit_no_invariant (E : Env)
    (H1 : ∀ pat e, getResolverEntry E pat = some e → e.pkg.version ≠ "")
    (H2 : ∀ d s, E.resolvePath d s ≠ "") :
    ∀ (n : Nat) (seeds pd : List String) (st : Stores) (msg : String),
      visit E n seeds pd st ≠ .error (.invariantViolation msg) := by
  intro n
  induction n with
  | zero =>
    intro seeds pd st msg h
    simp [visit] at h
  | succ n ih =>
    intro seeds pd st msg h
    simp only [visit] at h
    rcases hp : pass2 E (visit E n) seeds (pass1 E pd seeds ([], [])).1
        (pass1 E pd seeds ([], [])).2 st with err | st'
    · rw [hp] at h
      have herr : err = .invariantViolation msg := by simpa using h
      subst herr
      refine pass2_no_invariant E (visit E n) ih seeds _ _ st ?_ msg hp
      intro pat e hmem he
      obtain ⟨hd1, hd2⟩ := pass1_domain E pd seeds ([], []) pat e hmem he
      rcases hg1 : jsGet (pass1 E pd seeds ([], [])).1 e.pkg.name with _ | r
      · rw [hg1] at hd1
        simp at hd1
      · rcases hg2 : jsGet (pass1 E pd seeds ([], [])).2 e.pkg.name with _ | l
        · rw [hg2] at hd2
          simp at hd2
        · refine ⟨⟨r, rfl, ?_⟩, ⟨l, rfl, ?_⟩⟩
          · rcases pass1_res_shape E pd seeds ([], []) _ _ hg1 with hs | hs
            · obtain ⟨pat', _, e', he', _, hval⟩ := hs
              exact hval ▸ pass1Reference_ne_empty (H1 pat' e' he')
            · simp [jsGet] at hs
          · rcases pass1_loc_shape E pd seeds ([], []) _ _ hg2 with hs | hs
            · obtain ⟨pat', _, e', he', _, hval⟩ := hs
              exact hval ▸ pass1Location_ne_empty (getResolverEntry_spec he').2 H2
            · simp [jsGet] at hs
    · rw [hp] at h
      simp at h

/-! ### Concrete descriptor graphs for the cycle claims -/

/-- The resolver result for a pattern with no `_reference` (skipped by
`getResolverEntry`). -/
def unresolvedPkg : ResolvedPkg := ⟨"", "", none, [], none⟩

/-- A two-package dependency cycle `A -> B -> A` without peer dependencies.
The digest is modelled by the identity function (any digest gives the same
run, since no hashing happens without peer dependencies). -/
def envTwoCycle : Env where
  resolver := fun pat =>
    if pat = "a" then ⟨"A", "1.0", none, [], some ⟨some "/ra", ["b"]⟩⟩
    else if pat = "b" then ⟨"B", "2.0", none, [], some ⟨some "/rb", ["a"]⟩⟩
    else unresolvedPkg
  sha1hex := fun s => s
  sep := '/'
  dirname := fun _ => "/d"
  resolvePath := fun d s => d ++ "/" ++ s
  lockfileFolderRealpath := "/w"

/-- A dependency cycle through a package that declares peer dependencies:
`A@1.0` declares the peer dependency `P` and lists itself among its direct
dependencies.  Each recursion level then derives a fresh virtual reference
from the parent's reference, so the store lookup never hits. -/
def envPeerCycle : Env where
  resolver := fun pat =>
    if pat = "a" then ⟨"A", "1.0", none, ["P"], some ⟨some "/ra", ["a"]⟩⟩ else unresolvedPkg
  sha1hex := fun s => s
  sep := '/'
  dirname := fun _ => "/d"
  resolvePath := fun d s => d ++ "/" ++ s
  lockfileFolderRealpath := "/w"

/-- The entry resolved for pattern `"a"` in the peer-cycle graph. -/
def peerCycleEntry : ResolverEntry :=
  ⟨⟨"A", "1.0", none, ["P"], some ⟨some "/ra", ["a"]⟩⟩, ⟨some "/ra", ["a"]⟩, "/ra"⟩

theorem envPeerCycle_entry : getResolverEntry envPeerCycle "a" = some peerCycleEntry := rfl

/-- The virtual reference that pass 1 computes for `A` under the parent data
`pd` in the peer-cycle graph. -/
def cycleRef (pd : List String) : String := "pnp:" ++ String.join (pd ++ ["A", "1.0"])

/-- The aliased location pass 1 computes alongside `cycleRef pd`. -/
def cycleLoc (pd : List String) : String :=
  "/d" ++ "/" ++ ("pnp-" ++ String.join (pd ++ ["A", "1.0"]))

theorem envPeerCycle_pass1 (pd : List String) :
    pass1 envPeerCycle pd ["a"] ([], []) =
      ([("A", cycleRef pd)], [("A", cycleLoc pd)]) := rfl

theorem envPeerCycle_direct :
    directDependenciesOf envPeerCycle peerCycleEntry = ["a"] := rfl

theorem length_foldl_append : ∀ (l : List String) (s : String),
    (List.foldl (fun r t => r ++ t) s l).length = s.length + (l.map String.length).sum := by
  intro l
  induction l with
  | nil => intro s; simp
  | cons a l ih =>
    intro s
    simp only [List.foldl_cons, List.map_cons, List.sum_cons]
    rw [ih, String.length_append]
    omega

theorem length_join (l : List String) :
    (String.join l).length = (l.map String.length).sum := by
  simpa [String.join] using length_foldl_append l ""

theorem cycleRef_step_len (pd : List String) :
    (cycleRef ["A", cycleRef pd]).length = (cycleRef pd).length + 9 := by
  have hA : ("A" : String).length = 1 := rfl
  have hV : ("1.0" : String).length = 3 := rfl
  have hP : ("pnp:" : String).length = 4 := rfl
  simp only [cycleRef, String.length_append, length_join, List.cons_append, List.nil_append,
    List.map_append, List.sum_append, List.map_cons, List.map_nil, List.sum_cons,
    List.sum_nil, hA, hV, hP]
  omega

theorem cycleRef_ne_empty (pd : List String) : cycleRef pd ≠ "" :=
  string_append_ne_empty _ _ (by decide)

theorem cycleLoc_ne_empty (pd : List String) : cycleLoc pd ≠ "" :=
  string_append_ne_empty _ _ (by decide)

/-- Divergence of the peer-dependency self-cycle: provided every reference
already stored for `A` is shorter than the one pass 1 is about to compute
(true of the empty store), `visit` exhausts any amount of fuel. -/
theorem visit_envPeerCycle_diverges :
    ∀ (n : Nat) (pd : List String) (st : Stores),
      (∀ r' i, storesGetInfo st (some "A") (some r') = some i →
        r'.length < (cycleRef pd).length) →
      visit envPeerCycle n ["a"] pd st = .error .fuelExhausted := by
  intro n
  induction n with
  | zero => intro pd st _; rfl
  | succ n ih =>
    intro pd st hinv
    have hr : jsGet [("A", cycleRef pd)] "A" = some (cycleRef pd) := by simp [jsGet]
    have hl : jsGet [("A", cycleLoc pd)] "A" = some (cycleLoc pd) := by simp [jsGet]
    have hfresh : storesGetInfo (ensureStore st "A") (some "A") (some (cycleRef pd)) =
        none := by
      rw [storesGetInfo_ensureStore]
      rcases hg : storesGetInfo st (some "A") (some (cycleRef pd)) with _ | i
      · rfl
      · exact absurd (hinv _ _ hg) (lt_irrefl _)
    have hinv2 : ∀ r' i,
        storesGetInfo
          (storesSetInfo (ensureStore st "A") (some "A") (some (cycleRef pd))
            (freshInfo envPeerCycle.sep peerCycleEntry (cycleLoc pd)))
          (some "A") (some r') = some i →
        r'.length < (cycleRef ["A", cycleRef pd]).length := by
      intro r' i hg
      by_cases hrr : r' = cycleRef pd
      · rw [cycleRef_step_len pd]
        rw [hrr]
        omega
      · rw [storesGetInfo_setInfo_ne _ _ _ _ _ _ (.inr (by simpa using hrr)),
          storesGetInfo_ensureStore] at hg
        have := hinv _ _ hg
        rw [cycleRef_step_len pd]
        omega
    have hrec := ih ["A", cycleRef pd] _ hinv2
    simp only [visit, envPeerCycle_pass1]
    rw [pass2_cons_fresh envPeerCycle_entry hr (cycleRef_ne_empty pd) hl
      (cycleLoc_ne_empty pd) hfresh]
    rw [envPeerCycle_direct]
    have hname : peerCycleEntry.pkg.name = "A" := rfl
    rw [hname, hrec]

/-! ### Lemmas about the length table and its frequency ordering -/

theorem counts_fold_getD :
    ∀ (xs : List String) (m : JsMap Nat Nat) (L : Nat),
      (jsGet (xs.foldl (fun m loc => bumpLength m loc.length) m) L).getD 0 =
        (jsGet m L).getD 0 + xs.countP (fun loc => loc.length == L) := by
  intro xs
  induction xs with
  | nil => intro m L; simp
  | cons a xs ih =>
    intro m L
    simp only [List.foldl_cons, List.countP_cons]
    rw [ih]
    by_cases hL : a.length = L
    · subst hL
      rw [bumpLength, jsGet_jsSet_self]
      simp
      omega
    · rw [bumpLength, jsGet_jsSet_ne _ _ _ _ (Ne.symm hL)]
      simp [hL]

theorem counts_fold_isSome :
    ∀ (xs : List String) (m : JsMap Nat Nat) (L : Nat),
      (jsGet (xs.foldl (fun m loc => bumpLength m loc.length) m) L).isSome ↔
        (jsGet m L).isSome ∨ L ∈ xs.map String.length := by
  intro xs
  induction xs with
  | nil => intro m L; simp
  | cons a xs ih =>
    intro m L
    simp only [List.foldl_cons, List.map_cons, List.mem_cons]
    rw [ih]
    by_cases hL : a.length = L
    · subst hL
      rw [bumpLength, jsGet_jsSet_self]
      simp
    · rw [bumpLength, jsGet_jsSet_ne _ _ _ _ (Ne.symm hL)]
      have hL' : ¬ (L = a.length) := fun h => hL h.symm
      simp [hL']

theorem counts_fold_nodup :
    ∀ (xs : List String) (m : JsMap Nat Nat), (m.map Prod.fst).Nodup →
      ((xs.foldl (fun m loc => bumpLength m loc.length) m).map Prod.fst).Nodup := by
  intro xs
  induction xs with
  | nil => intro m h; exact h
  | cons a xs ih =>
    intro m h
    simp only [List.foldl_cons]
    exact ih _ (keys_nodup_jsSet h)

theorem locationLengthCounts_nodup (stores : Stores) :
    ((locationLengthCounts stores).map Prod.fst).Nodup :=
  counts_fold_nodup (allPackageLocations stores) [] (by simp)

/-- The count recorded for a length is the number of store locations having
exactly that length. -/
theorem locationLengthCounts_count (stores : Stores) (L c : Nat)
    (h : (L, c) ∈ locationLengthCounts stores) :
    c = (allPackageLocations stores).countP (fun loc => loc.length == L) := by
  have hg := jsGet_of_mem_of_nodup h (locationLengthCounts_nodup stores)
  have hc := counts_fold_getD (allPackageLocations stores) [] L
  rw [show ((allPackageLocations stores).foldl (fun m loc => bumpLength m loc.length) [])
      = locationLengthCounts stores from rfl, hg] at hc
  simpa [jsGet] using hc

theorem mem_counts_keys_iff (stores : Stores) (L : Nat) :
    L ∈ (locationLengthCounts stores).map Prod.fst ↔
      L ∈ (allPackageLocations stores).map String.length := by
  constructor
  · intro h
    have := (counts_fold_isSome (allPackageLocations stores) [] L).1
      (jsGet_isSome_of_mem_keys h)
    simpa [jsGet] using this
  · intro h
    refine mem_keys_of_jsGet_isSome ?_
    exact (counts_fold_isSome (allPackageLocations stores) [] L).2 (.inr h)

instance : IsTotal (Nat × Nat) countGE where
  total a b := Nat.le_total b.2 a.2

instance : IsTrans (Nat × Nat) countGE where
  trans _ _ _ hab hbc := Nat.le_trans hbc hab

theorem sortedLengths_sorted (stores : Stores) :
    (sortedLengths stores).Pairwise countGE :=
  List.sorted_insertionSort countGE (locationLengthCounts stores)

theorem mem_sortedLengths (stores : Stores) (e : Nat × Nat) :
    e ∈ sortedLengths stores ↔ e ∈ locationLengthCounts stores :=
  List.mem_insertionSort countGE

theorem filter_orderedInsert_of_eq (c : Nat) (a : Nat × Nat) :
    ∀ l : List (Nat × Nat), a.2 = c →
      (List.orderedInsert countGE a l).filter (fun e => e.2 == c) =
        a :: l.filter (fun e => e.2 == c) := by
  intro l
  induction l with
  | nil => intro ha; simp [List.orderedInsert, ha]
  | cons b l ih =>
    intro ha
    by_cases hab : countGE a b
    · simp only [List.orderedInsert, if_pos hab]
      simp [List.filter_cons, ha]
    · simp only [List.orderedInsert, if_neg hab]
      have hb : ¬ (b.2 = c) := by
        have hgt : ¬ (b.2 ≤ a.2) := hab
        omega
      simp [List.filter_cons, hb, ih ha]

theorem filter_orderedInsert_of_ne (c : Nat) (a : Nat × Nat) :
    ∀ l : List (Nat × Nat), a.2 ≠ c →
      (List.orderedInsert countGE a l).filter (fun e => e.2 == c) =
        l.filter (fun e => e.2 == c) := by
  intro l
  induction l with
  | nil => intro ha; simp [List.orderedInsert, ha]
  | cons b l ih =>
    intro ha
    by_cases hab : countGE a b
    · simp only [List.orderedInsert, if_pos hab]
      simp [List.filter_cons, ha]
    · simp only [List.orderedInsert, if_neg hab]
      simp [List.filter_cons, ih ha]

/-- Stability of the frequency sort: entries with any fixed occurrence count
keep their first-encounter order. -/
theorem filter_insertionSort_counts (c : Nat) :
    ∀ l : List (Nat × Nat),
      (l.insertionSort countGE).filter (fun e => e.2 == c) =
        l.filter (fun e => e.2 == c) := by
  intro l
  induction l with
  | nil => rfl
  | cons a l ih =>
    simp only [List.insertionSort]
    by_cases ha : a.2 = c
    · rw [filter_orderedInsert_of_eq c a _ ha, ih]
      simp [List.filter_cons, ha]
    · rw [filter_orderedInsert_of_ne c a _ ha, ih]
      simp [List.filter_cons, ha]

/-! ### Lemmas about the inverse location index -/

theorem locIndex_inner_isSome (nameKey : Option String) :
    ∀ (store : JsMap (Option String) PackageInformation)
      (m : JsMap String PackageLocator) (s : String),
      (jsGet (store.foldl
        (fun m kv => jsSet m kv.2.packageLocation (locatorFor nameKey kv.1)) m) s).isSome →
      (jsGet m s).isSome ∨ s ∈ store.map (fun kv => kv.2.packageLocation) := by
  intro store
  induction store with
  | nil => intro m s h; exact .inl h
  | cons kv store ih =>
    intro m s h
    simp only [List.foldl_cons] at h
    rcases ih _ _ h with h' | h'
    · by_cases hk : kv.2.packageLocation = s
      · exact .inr (by simp [hk])
      · rw [jsGet_jsSet_ne _ _ _ _ (Ne.symm hk)] at h'
        exact .inl h'
    · exact .inr (by simp [h'])

theorem locatorsByLocations_isSome :
    ∀ (stores : Stores) (m : JsMap String PackageLocator) (s : String),
      (jsGet (stores.foldl
        (fun m p => p.2.foldl
          (fun m kv => jsSet m kv.2.packageLocation (locatorFor p.1 kv.1)) m) m) s).isSome →
      (jsGet m s).isSome ∨ s ∈ allPackageLocations stores := by
  intro stores
  induction stores with
  | nil => intro m s h; exact .inl h
  | cons p stores ih =>
    intro m s h
    simp only [List.foldl_cons] at h
    rcases ih _ _ h with h' | h'
    · rcases locIndex_inner_isSome p.1 p.2 m s h' with h'' | h''
      · exact .inl h''
      · exact .inr (by simp [allPackageLocations, h''])
    · simp only [allPackageLocations, List.map_cons, List.flatten_cons] at h' ⊢
      exact .inr (List.mem_append_right _ h')

/-- A location-index hit certifies that the key is one of the store's
registered package locations. -/
theorem mem_allPackageLocations_of_hit (stores : Stores) (s : String)
    (h : (jsGet (locatorsByLocations stores) s).isSome) :
    s ∈ allPackageLocations stores := by
  rcases locatorsByLocations_isSome stores [] s h with h' | h'
  · simp [jsGet] at h'
  · exact h'

theorem mem_allPackageLocations (st : Stores) (loc : String) :
    loc ∈ allPackageLocations st ↔ ∃ p ∈ st, ∃ kv ∈ p.2, kv.2.packageLocation = loc := by
  unfold allPackageLocations
  simp only [List.mem_flatten, List.mem_map]
  constructor
  · rintro ⟨l, ⟨p, hp, rfl⟩, hl⟩
    obtain ⟨kv, hkv, rfl⟩ := List.mem_map.1 hl
    exact ⟨p, hp, kv, hkv, rfl⟩
  · rintro ⟨p, hp, kv, hkv, rfl⟩
    exact ⟨p.2.map (fun kv => kv.2.packageLocation), ⟨p, hp, rfl⟩,
      List.mem_map_of_mem _ hkv⟩

/-! ### Lemmas about the marker replacement -/

theorem replaceFirst_of_not_contains (marker repl : List Char) :
    ∀ s : List Char, containsMarker marker s = false → replaceFirst marker repl s = s := by
  intro s
  induction s with
  | nil =>
    intro h
    simp only [containsMarker] at h
    simp [replaceFirst, h]
  | cons c rest ih =>
    intro h
    simp only [containsMarker, Bool.or_eq_false_iff] at h
    simp [replaceFirst, h.1, ih h.2]

theorem string_append_ne_empty' (a b : String) (h : b ≠ "") : a ++ b ≠ "" := by
  intro hab
  apply h
  have hd := congrArg String.data hab
  rw [String.data_append] at hd
  have hb : b.data = [] := (List.append_eq_nil.1 hd).2
  cases b with
  | mk db =>
    have hdb : db = [] := hb
    subst hdb
    rfl

/-- A descriptor graph with one resolvable package `A@1.0` (no peer
dependencies, no dependencies) and every other pattern unresolvable. -/
def envSkip : Env where
  resolver := fun pat =>
    if pat = "a" then ⟨"A", "1.0", none, [], some ⟨some "/ra", []⟩⟩ else unresolvedPkg
  sha1hex := fun s => s
  sep := '/'
  dirname := fun _ => "/d"
  resolvePath := fun d s => d ++ "/" ++ s
  lockfileFolderRealpath := "/w"

/-- C8: a seed pattern for which the resolver yields no reference object or
no on-disk location is silently skipped by both passes of `visit`: the run
on a seed list containing such a pattern is identical, at every fuel, scope
and store, to the run on the list with that pattern removed — so the
pattern adds nothing to the scope's resolutions or locations, nothing to
the store, and is omitted from the returned name-to-reference mapping. -/
theorem C8_unresolvable_skipped (E : Env) (p : String)
    (he : getResolverEntry E p = none) (n : Nat) (pre post pd : List String)
    (st : Stores) :
    visit E n (pre ++ p :: post) pd st = visit E n (pre ++ post) pd st := by
  cases n with
  | zero => rfl
  | succ n =>
    simp only [visit]
    rw [pass1_skip E pd he pre post, pass2_skip E (visit E n) he pre post]

theorem C8_witness :
    visit envSkip 5 (["a"] ++ "x" :: []) [] [] = visit envSkip 5 (["a"] ++ []) [] [] :=
  C8_unresolvable_skipped envSkip "x" rfl 5 ["a"] [] [] []

/-- C10: assuming every resolvable pattern reports a non-empty version
string and `path.resolve` always yields a non-empty path (so every computed
location is non-empty; the resolver is a pure function, hence both passes of
a `visit` invocation see the same result for each pattern), the two pass-2
`invariant(...)` failures ("Package reference/location should have been
computed during the pre-pass") are unreachable: `visit` never returns an
invariant violation, because pass 1 has bound every resolvable pattern's
name to a truthy reference and location. -/
theorem C10_invariants_unreachable (E : Env)
    (H1 : ∀ pat e, getResolverEntry E pat = some e → e.pkg.version ≠ "")
    (H2 : ∀ d s, E.resolvePath d s ≠ "")
    (n : Nat) (seeds pd : List String) (st : Stores) (msg : String) :
    visit E n seeds pd st ≠ .error (.invariantViolation msg) :=
  visit_no_invariant E H1 H2 n seeds pd st msg

theorem C10_witness :
    visit envSkip 3 ["a"] [] [] ≠
      .error (.invariantViolation
        "Package reference should have been computed during the pre-pass") :=
  C10_invariants_unreachable envSkip
    (fun pat e h => by
      by_cases hp : pat = "a"
      · subst hp
        have he : getResolverEntry envSkip "a" =
            some ⟨⟨"A", "1.0", none, [], some ⟨some "/ra", []⟩⟩, ⟨some "/ra", []⟩, "/ra"⟩ :=
          rfl
        rw [he] at h
        have := Option.some_inj.1 h
        rw [← this]
        decide
      · have he : getResolverEntry envSkip pat = none := by
          simp [getResolverEntry, envSkip, hp, unresolvedPkg]
        rw [he] at h
        exact absurd h (by simp))
    (fun d s => string_append_ne_empty (d ++ "/") s (string_append_ne_empty' d "/" (by decide)))
    3 ["a"] [] [] _

/-- The two-package cycle `A -> B -> A` with no peer dependencies. -/
def envTwoCycleStoresValue : Stores :=
  [(some "A", [(some "1.0", ⟨none, "/ra/", [("B", "2.0")]⟩)]),
   (some "B", [(some "2.0", ⟨none, "/rb/", [("A", "1.0")]⟩)])]

theorem envTwoCycle_run :
    visit envTwoCycle 10 ["a"] [] [] = .ok (envTwoCycleStoresValue, [("A", "1.0")]) := by
  rfl

/-- C5: during a single build, (i) the store is append-only — every
`(name, reference)` identity present before a `visit` call is present
afterwards with the same record — and keeps at most one record per identity
(no duplicate outer or inner keys), and (ii) a pass-2 step that meets an
already-registered `(name, reference)` identity is a no-op: it continues
with the store unchanged and without recursing, reusing the first-inserted
record. -/
theorem C5_store_invariants (E : Env) :
    (∀ (n : Nat) (seeds pd : List String) (st : Stores) (out : Stores × Resolutions),
      visit E n seeds pd st = .ok out →
      StorePreserved st out.1 ∧ (WFStores st → WFStores out.1)) ∧
    (∀ (n : Nat) (p : String) (rest : List String) (res locs : Resolutions)
      (st : Stores) (e : ResolverEntry) (r l : String) (i : PackageInformation),
      getResolverEntry E p = some e →
      jsGet res e.pkg.name = some r → r ≠ "" →
      jsGet locs e.pkg.name = some l → l ≠ "" →
      storesGetInfo st (some e.pkg.name) (some r) = some i →
      pass2 E (visit E n) (p :: rest) res locs st =
        pass2 E (visit E n) rest res locs st) := by
  constructor
  · intro n seeds pd st out h
    have hinv := visit_invariants E n seeds pd st out h
    exact ⟨hinv.1, hinv.2.1⟩
  · intro n p rest res locs st e r l i he hr hr0 hl hl0 hex
    have houter : (jsGet st (some e.pkg.name)).isSome := by
      unfold storesGetInfo at hex
      rcases hg : jsGet st (some e.pkg.name) with _ | s
      · rw [hg] at hex
        exact absurd hex (by simp)
      · simp
    have hens : ensureStore st e.pkg.name = st := by
      unfold ensureStore
      rw [if_pos houter]
    have hex' : storesGetInfo (ensureStore st e.pkg.name) (some e.pkg.name) (some r) =
        some i := by
      rw [storesGetInfo_ensureStore]
      exact hex
    rw [pass2_cons_skip he hr hr0 hl hl0 hex', hens]

/-- A store already containing the identity `(A, 1.0)`. -/
def preRegisteredStore : Stores := [(some "A", [(some "1.0", ⟨none, "/old/", []⟩)])]

theorem C5_witness :
    StorePreserved [] envTwoCycleStoresValue ∧
    (WFStores ([] : Stores) → WFStores envTwoCycleStoresValue) ∧
    pass2 envTwoCycle (visit envTwoCycle 9) ["a"] [("A", "1.0")] [("A", "/ra")]
        preRegisteredStore =
      pass2 envTwoCycle (visit envTwoCycle 9) [] [("A", "1.0")] [("A", "/ra")]
        preRegisteredStore := by
  refine ⟨?_, ?_, ?_⟩
  · exact ((C5_store_invariants envTwoCycle).1 10 ["a"] [] []
      (envTwoCycleStoresValue, [("A", "1.0")]) envTwoCycle_run).1
  · exact ((C5_store_invariants envTwoCycle).1 10 ["a"] [] []
      (envTwoCycleStoresValue, [("A", "1.0")]) envTwoCycle_run).2
  · exact (C5_store_invariants envTwoCycle).2 9 "a" [] [("A", "1.0")] [("A", "/ra")]
      preRegisteredStore ⟨⟨"A", "1.0", none, [], some ⟨some "/ra", ["b"]⟩⟩,
        ⟨some "/ra", ["b"]⟩, "/ra"⟩ "1.0" "/ra" ⟨none, "/old/", []⟩
      rfl rfl (by decide) rfl (by decide) rfl

/-- C3: the insert-before-recurse mechanism terminates the plain two-package
cycle `A -> B -> A` with exactly one store entry per package (first
conjunct: at fuel 10 the run completes, i.e. the fuel bound is not hit, and
each of `A` and `B` has a one-entry store).  But the claim's universal
termination statement is false on the code: in a dependency cycle whose
member declares peer dependencies (`envPeerCycle`: `A` peer-depends on `P`
and depends on itself), every recursion level derives a fresh `pnp:` virtual
reference from the parent's reference, the store lookup never hits, and the
recursion never terminates — `visit` exhausts every amount of fuel (second
conjunct), contradicting the source's own comment that the two-step insert
"prevents cyclic dependencies from looping indefinitely". -/
theorem C3_cycle_termination :
    ((visit envTwoCycle 10 ["a"] [] []).map
        (fun out => (((jsGet out.1 (some "A")).getD []).length,
                     ((jsGet out.1 (some "B")).getD []).length)) = .ok (1, 1)) ∧
    (∀ fuel : Nat, visit envPeerCycle fuel ["a"] [] [] = .error .fuelExhausted) := by
  constructor
  · rw [envTwoCycle_run]
    rfl
  · intro fuel
    refine visit_envPeerCycle_diverges fuel [] [] ?_
    intro r' i hg
    exact absurd hg (by simp [storesGetInfo, jsGet])

/-- C6: for a newly inserted package instance, the stored
`packageDependencies` is exactly the recursion's returned scope mapping with
the peer entries injected afterwards (`injectPeers` is applied to the
recursion's output, so the peers are filled in only after the recursive
visit of the non-peer direct dependencies has returned — first conjunct),
non-peer names are untouched by the injection (second conjunct), a peer
name with no resolution recorded in the enclosing scope is silently absent
(third conjunct: the recursion cannot have bound it either, because the
direct-dependency filter excludes patterns resolving to peer names), and a
peer name with a truthy resolution in the enclosing scope is bound to that
scope's reference (fourth conjunct). -/
theorem C6_peer_injection (E : Env) (n : Nat) (p : String) (rest : List String)
    (res locs : Resolutions) (st st3 : Stores) (childRes : Resolutions)
    (e : ResolverEntry) (r l : String)
    (he : getResolverEntry E p = some e)
    (hr : jsGet res e.pkg.name = some r) (hr0 : r ≠ "")
    (hl : jsGet locs e.pkg.name = some l) (hl0 : l ≠ "")
    (hfresh : storesGetInfo (ensureStore st e.pkg.name) (some e.pkg.name) (some r) = none)
    (hrec : visit E n (directDependenciesOf E e) [e.pkg.name, r]
      (storesSetInfo (ensureStore st e.pkg.name) (some e.pkg.name) (some r)
        (freshInfo E.sep e l)) = .ok (st3, childRes)) :
    pass2 E (visit E n) (p :: rest) res locs st =
      pass2 E (visit E n) rest res locs
        (storesSetInfo st3 (some e.pkg.name) (some r)
          { freshInfo E.sep e l with
            packageDependencies := injectPeers res e.pkg.peerDependencies childRes }) ∧
    (∀ q, q ∉ e.pkg.peerDependencies →
      jsGet (injectPeers res e.pkg.peerDependencies childRes) q = jsGet childRes q) ∧
    (∀ q, q ∈ e.pkg.peerDependencies → jsGet res q = none →
      jsGet (injectPeers res e.pkg.peerDependencies childRes) q = none) ∧
    (∀ q r', q ∈ e.pkg.peerDependencies → jsGet res q = some r' → r' ≠ "" →
      jsGet (injectPeers res e.pkg.peerDependencies childRes) q = some r') := by
  refine ⟨?_, fun q hq => injectPeers_get_not_mem _ _ _ _ hq, ?_,
    fun q r' hq hg hr0' => injectPeers_get_some _ _ _ _ _ hq hg hr0'⟩
  · rw [pass2_cons_fresh he hr hr0 hl hl0 hfresh, hrec]
  · intro q hq hnone
    rw [injectPeers_get_none _ _ _ _ hnone]
    rcases hcq : jsGet childRes q with _ | rq
    · rfl
    · exfalso
      obtain ⟨pat, hpat, e', he', hname⟩ :=
        visit_res_names E n _ _ _ (st3, childRes) hrec q rq hcq
      have hpeer := directDependencies_not_peer E e pat hpat
      have hpk : e'.pkg = E.resolver pat := (getResolverEntry_spec he').1
      rw [← hpk, hname] at hpeer
      exact hpeer hq

/-- A package `A@1.0` with peer dependency `P`, next to a sibling pattern
resolving `P@3.0` in the same scope. -/
def envPeerScope : Env where
  resolver := fun pat =>
    if pat = "a" then ⟨"A", "1.0", none, ["P"], some ⟨some "/ra", []⟩⟩
    else if pat = "p" then ⟨"P", "3.0", none, [], some ⟨some "/rp", []⟩⟩
    else unresolvedPkg
  sha1hex := fun s => s
  sep := '/'
  dirname := fun _ => "/d"
  resolvePath := fun d s => d ++ "/" ++ s
  lockfileFolderRealpath := "/w"

def peerScopeEntry : ResolverEntry :=
  ⟨⟨"A", "1.0", none, ["P"], some ⟨some "/ra", []⟩⟩, ⟨some "/ra", []⟩, "/ra"⟩

def peerScopeStore : Stores :=
  [(some "A", [(some "pnp:A1.0", ⟨none, "/d/pnp-A1.0/", []⟩)])]

theorem C6_witness :
    jsGet (injectPeers [("A", "pnp:A1.0"), ("P", "3.0")] ["P"] []) "P" = some "3.0" ∧
    jsGet (injectPeers [("A", "pnp:A1.0"), ("P", "3.0")] ["P"] []) "Q" = jsGet ([] : Resolutions) "Q" := by
  have happ := C6_peer_injection envPeerScope 4 "a" ["p"]
    [("A", "pnp:A1.0"), ("P", "3.0")] [("A", "/d/pnp-A1.0"), ("P", "/rp")] []
    peerScopeStore [] peerScopeEntry "pnp:A1.0" "/d/pnp-A1.0"
    rfl rfl (by decide) rfl (by decide) rfl rfl
  exact ⟨happ.2.2.2 "P" "3.0" (by decide) rfl (by decide),
    happ.2.1 "Q" (by decide)⟩

/-- C9 (amended): every `packageLocation` stored in any
`PackageInformation` of a completed build — the synthetic root entry
included — ends with the platform path separator: its last character is
`path.sep`.  The frozen claim's stronger "exactly one" is refuted by
`C9_counterexample`: the normalization replaces or appends only the final
character, so a resolver location that already ends with several
separators keeps the earlier ones. -/
theorem C9_locations_end_with_sep (E : Env) (fuel : Nat) (seeds : List String)
    (st : Stores) (h : getPackageInformationStores E fuel seeds = .ok st) :
    ∀ loc ∈ allPackageLocations st, loc.data.getLast? = some E.sep := by
  unfold getPackageInformationStores at h
  rcases hv : visit E fuel seeds [] [] with err | out
  · rw [hv] at h
    exact absurd h (by simp)
  · obtain ⟨stores0, rootRes⟩ := out
    rw [hv] at h
    have hnorm : LocationsNormalized E.sep stores0 :=
      (visit_invariants E fuel seeds [] [] (stores0, rootRes) hv).2.2
        (by intro p hp kv hkv; simp at hp)
    have hst : st = jsSet stores0 none
        [(none,
          { packageMainEntry := none
            packageLocation := normalizeLocation E.sep E.lockfileFolderRealpath
            packageDependencies := rootRes })] := by
      simpa using h.symm
    subst hst
    intro loc hloc
    rw [mem_allPackageLocations] at hloc
    obtain ⟨p, hp, kv, hkv, hloc'⟩ := hloc
    rcases mem_of_mem_jsSet hp with h' | h'
    · subst h'
      rcases List.mem_cons.1 hkv with h'' | h''
      · rw [h''] at hloc'
        rw [← hloc']
        exact normalizeLocation_getLast E.sep E.lockfileFolderRealpath
      · simp at h''
    · rw [← hloc']
      exact hnorm p h' kv hkv

/-- The full stores of the two-cycle run, root entry included. -/
def envTwoCycleFullStores : Stores :=
  [(some "A", [(some "1.0", ⟨none, "/ra/", [("B", "2.0")]⟩)]),
   (some "B", [(some "2.0", ⟨none, "/rb/", [("A", "1.0")]⟩)]),
   (none, [(none, ⟨none, "/w/", [("A", "1.0")]⟩)])]

theorem C9_witness :
    getPackageInformationStores envTwoCycle 10 ["a"] = .ok envTwoCycleFullStores ∧
    "/ra/" ∈ allPackageLocations envTwoCycleFullStores ∧
    ("/ra/" : String).data.getLast? = some envTwoCycle.sep := by
  refine ⟨rfl, by decide, ?_⟩
  exact C9_locations_end_with_sep envTwoCycle 10 ["a"] envTwoCycleFullStores rfl
    "/ra/" (by decide)

/-- A resolver location that already ends with two slashes. -/
def envDoubleSlash : Env where
  resolver := fun pat =>
    if pat = "a" then ⟨"A", "1.0", none, [], some ⟨some "/p//", []⟩⟩ else unresolvedPkg
  sha1hex := fun s => s
  sep := '/'
  dirname := fun _ => "/d"
  resolvePath := fun d s => d ++ "/" ++ s
  lockfileFolderRealpath := "/w"

/-- C9 counterexample: with the resolver location `"/p//"` the stored
`packageLocation` is `"/p//"` unchanged (the anchored replace rewrites only
the final character), which ends with two platform separators — refuting
"ends with exactly one platform path separator". -/
theorem C9_counterexample :
    (getPackageInformationStores envDoubleSlash 5 ["a"]).map
        (fun st => (storesGetInfo st (some "A") (some "1.0")).map
          (fun i => i.packageLocation)) = .ok (some "/p//") ∧
    ("/p//" : String).data.getLast? = some envDoubleSlash.sep ∧
    ("/p//" : String).data.dropLast.getLast? = some envDoubleSlash.sep := by
  exact ⟨rfl, by decide, by decide⟩

theorem string_append_left_cancel {a x y : String} (h : a ++ x = a ++ y) : x = y := by
  have hd := congrArg String.data h
  rw [String.data_append, String.data_append] at hd
  have hxy := List.append_cancel_left hd
  cases x with
  | mk dx =>
    cases y with
    | mk dy =>
      have : dx = dy := hxy
      rw [this]

/-- C2 (amended): (first conjunct) every reference bound by pass 1 belongs
to a resolvable seed pattern of the scope and is either the package version
(no peer dependencies) or the virtual reference `"pnp:" ++ hash` of the
digest of the concatenation `parentData ++ [name, version]` — where
`parentData` is only the immediate parent's `[name, reference]` pair, not
the full root-to-node chain; (second conjunct) for a collision-free
(injective) digest, two such virtual references are distinct whenever the
concatenated token strings differ.  The frozen claim's unconditional
distinctness over different ancestry chains is refuted by
`C2_counterexample`: the concatenation erases token boundaries, so distinct
chains with equal concatenations share one reference and one store entry. -/
theorem C2_virtual_references (E : Env) (pd : List String) :
    (∀ (seeds : List String) (k r : String),
      jsGet (pass1 E pd seeds ([], [])).1 k = some r →
      ∃ pat ∈ seeds, ∃ e, getResolverEntry E pat = some e ∧ e.pkg.name = k ∧
        ((e.pkg.peerDependencies = [] ∧ r = e.pkg.version) ∨
         (e.pkg.peerDependencies ≠ [] ∧
           r = "pnp:" ++ getHashFrom E (pd ++ [k, e.pkg.version])))) ∧
    (Function.Injective E.sha1hex →
      ∀ d₁ d₂ : List String, String.join d₁ ≠ String.join d₂ →
        "pnp:" ++ getHashFrom E d₁ ≠ "pnp:" ++ getHashFrom E d₂) := by
  constructor
  · intro seeds k r h
    rcases pass1_res_shape E pd seeds ([], []) k r h with hs | hs
    · obtain ⟨pat, hpat, e, he, hname, hval⟩ := hs
      refine ⟨pat, hpat, e, he, hname, ?_⟩
      unfold pass1Reference at hval
      by_cases hp : e.pkg.peerDependencies = []
      · rw [if_pos hp] at hval
        exact .inl ⟨hp, hval⟩
      · rw [if_neg hp] at hval
        subst hname
        exact .inr ⟨hp, hval⟩
    · exact absurd hs (by simp [jsGet])
  · intro hinj d₁ d₂ hne heq
    apply hne
    apply hinj
    exact string_append_left_cancel heq

/-- Two seed packages `A@1.0` and `A1@.0` whose `[name, reference]` parent
data concatenate to the same string `"A1.0"`, each depending on the
peer-dependency package `B@2.0`. -/
def envAmbiguous : Env where
  resolver := fun pat =>
    if pat = "a1" then ⟨"A", "1.0", none, [], some ⟨some "/ra1", ["b"]⟩⟩
    else if pat = "a2" then ⟨"A1", ".0", none, [], some ⟨some "/ra2", ["b"]⟩⟩
    else if pat = "b" then ⟨"B", "2.0", none, ["P"], some ⟨some "/rb", []⟩⟩
    else unresolvedPkg
  sha1hex := fun s => s
  sep := '/'
  dirname := fun _ => "/d"
  resolvePath := fun d s => d ++ "/" ++ s
  lockfileFolderRealpath := "/w"

/-- C2 counterexample: under the two distinct ancestry chains
`["A", "1.0"]` and `["A1", ".0"]` (first conjunct), the peer-dependency
package `B@2.0` receives the *same* digest input — the concatenation of the
chain tokens plus name and version is `"A1.0B2.0"` in both cases, so any
digest of it is equal (second conjunct) — and therefore one single shared
store entry instead of two distinct, independent ones (third conjunct: the
full run registers exactly one reference under the name `B`). -/
theorem C2_counterexample :
    (["A", "1.0"] : List String) ≠ ["A1", ".0"] ∧
    getHashFrom envAmbiguous (["A", "1.0"] ++ ["B", "2.0"]) =
      getHashFrom envAmbiguous (["A1", ".0"] ++ ["B", "2.0"]) ∧
    (getPackageInformationStores envAmbiguous 10 ["a1", "a2"]).map
        (fun st => ((jsGet st (some "B")).getD []).length) = .ok 1 := by
  exact ⟨by decide, rfl, rfl⟩

theorem C2_witness :
    ("pnp:" ++ getHashFrom envAmbiguous ["x"] ≠ "pnp:" ++ getHashFrom envAmbiguous ["y"]) ∧
    (∃ pat ∈ ["b"], ∃ e, getResolverEntry envAmbiguous pat = some e ∧
      e.pkg.name = "B" ∧
      ((e.pkg.peerDependencies = [] ∧ "pnp:A1.0B2.0" = e.pkg.version) ∨
       (e.pkg.peerDependencies ≠ [] ∧
         "pnp:A1.0B2.0" =
           "pnp:" ++ getHashFrom envAmbiguous (["A", "1.0"] ++ ["B", e.pkg.version])))) := by
  constructor
  · exact (C2_virtual_references envAmbiguous []).2 (fun a b h => h) ["x"] ["y"] (by decide)
  · exact (C2_virtual_references envAmbiguous ["A", "1.0"]).1 ["b"] "B" "pnp:A1.0B2.0" rfl

/-- C1 (amended): when the delivery template does not contain the
substitution marker `$$SETUP_STATIC_TABLES();`, `generatePnpMap` raises no
error at all — JavaScript's `String.replace` with a non-matching pattern
returns its input — and the successful result is the template returned
verbatim, with neither the generated maps nor the matcher spliced in. -/
theorem C1_missing_marker (E : Env) (fuel : Nat) (seeds : List String)
    (tpl out : String) (hm : containsMarker pnpMarker.data tpl.data = false)
    (h : generatePnpMap E fuel seeds tpl = .ok out) : out = tpl := by
  unfold generatePnpMap at h
  rcases hg : getPackageInformationStores E fuel seeds with err | stores
  · rw [hg] at h
    exact absurd h (by simp)
  · rw [hg] at h
    have hout : out = ⟨replaceFirst pnpMarker.data (setupStaticTables stores).data tpl.data⟩ := by
      simpa using h.symm
    rw [hout, replaceFirst_of_not_contains _ _ _ hm]

/-- A run with no seed patterns: the stores hold only the synthetic root. -/
def envNoSeeds : Env where
  resolver := fun _ => unresolvedPkg
  sha1hex := fun s => s
  sep := '/'
  dirname := fun _ => "/d"
  resolvePath := fun d s => d ++ "/" ++ s
  lockfileFolderRealpath := "/w"

def noSeedsStores : Stores := [(none, [(none, ⟨none, "/w/", []⟩)])]

/-- C1 counterexample: on the markerless template `"module.exports = 42;"`,
`generatePnpMap` neither fails nor aborts — it returns `.ok` with the
template unchanged — although the generated tables are non-empty and no
part of them occurs in the returned artifact.  This refutes "fails with a
fatal configuration error and aborts before producing any output; it never
returns an artifact in which the generated maps and matcher were not
spliced in". -/
theorem C1_counterexample :
    getPackageInformationStores envNoSeeds 1 [] = .ok noSeedsStores ∧
    containsMarker pnpMarker.data ("module.exports = 42;" : String).data = false ∧
    setupStaticTables noSeedsStores ≠ "" ∧
    containsMarker (setupStaticTables noSeedsStores).data
      ("module.exports = 42;" : String).data = false ∧
    generatePnpMap envNoSeeds 1 [] "module.exports = 42;" =
      .ok "module.exports = 42;" := by
  exact ⟨rfl, by decide, by decide, by decide, rfl⟩

theorem C1_witness :
    containsMarker pnpMarker.data ("x" : String).data = false ∧
    generatePnpMap envNoSeeds 1 [] "x" = .ok "x" ∧ ("x" : String) = "x" :=
  ⟨by decide, rfl, C1_missing_marker envNoSeeds 1 [] "x" "x" (by decide) rfl⟩

/-- C4: the generated `findPackageLocator` (modelled by
`findPackageLocator`) returns a locator only when, for some registered
location length `L` (a length of one of the stored `packageLocation`
strings), the input is at least `L` long, its character at index `L - 1` is
the platform separator, and its prefix of length `L` is exactly a
registered `packageLocation` (a key of the inverse location index) — first
conjunct.  Conversely, a path that admits no registered separator-terminated
prefix (in particular one merely sharing a partial segment with a
registered location) yields `null` — second conjunct. -/
theorem C4_find_locator_exact (stores : Stores) (sep : Char) (loc : String) :
    (∀ m, findPackageLocator stores sep loc = some m →
      ∃ L ∈ (allPackageLocations stores).map String.length, 0 < L ∧ L ≤ loc.length ∧
        loc.data.get? (L - 1) = some sep ∧
        (⟨loc.data.take L⟩ : String) ∈ allPackageLocations stores ∧
        jsGet (locatorsByLocations stores) (⟨loc.data.take L⟩ : String) = some m) ∧
    ((¬ ∃ L ∈ (allPackageLocations stores).map String.length, 0 < L ∧ L ≤ loc.length ∧
        loc.data.get? (L - 1) = some sep ∧
        (jsGet (locatorsByLocations stores) (⟨loc.data.take L⟩ : String)).isSome) →
      findPackageLocator stores sep loc = none) := by
  constructor
  · intro m h
    obtain ⟨e, he, hfe⟩ := exists_of_findSome?_eq_some h
    have hmem : e.1 ∈ (allPackageLocations stores).map String.length :=
      (mem_counts_keys_iff stores e.1).1
        (List.mem_map_of_mem Prod.fst ((mem_sortedLengths stores e).1 he))
    by_cases hc : 0 < e.1 ∧ e.1 ≤ loc.length ∧ loc.data.get? (e.1 - 1) = some sep
    · rw [if_pos hc] at hfe
      exact ⟨e.1, hmem, hc.1, hc.2.1, hc.2.2,
        mem_allPackageLocations_of_hit stores _ (by simp [hfe]), hfe⟩
    · rw [if_neg hc] at hfe
      exact absurd hfe (by simp)
  · intro hne
    apply findSome?_eq_none_of_all
    intro e he
    have hmem : e.1 ∈ (allPackageLocations stores).map String.length :=
      (mem_counts_keys_iff stores e.1).1
        (List.mem_map_of_mem Prod.fst ((mem_sortedLengths stores e).1 he))
    by_cases hc : 0 < e.1 ∧ e.1 ≤ loc.length ∧ loc.data.get? (e.1 - 1) = some sep
    · rw [if_pos hc]
      rcases hj : jsGet (locatorsByLocations stores) (⟨loc.data.take e.1⟩ : String)
          with _ | m
      · rfl
      · exact absurd ⟨e.1, hmem, hc.1, hc.2.1, hc.2.2, by simp [hj]⟩ hne
    · rw [if_neg hc]

/-- A store registering the single location `"/proj/node_modules/x/"`. -/
def xOnlyStores : Stores :=
  [(some "x", [(some "1.0", ⟨none, "/proj/node_modules/x/", []⟩)])]

/-- C4 witness: the claim's own example — against the registered location
`"/proj/node_modules/x/"`, the path `"/proj/node_modules/xy/lib/index.js"`
shares only a partial segment, admits no registered separator-terminated
prefix, and is resolved to `null`. -/
theorem C4_witness :
    findPackageLocator xOnlyStores '/' "/proj/node_modules/xy/lib/index.js" = none :=
  (C4_find_locator_exact xOnlyStores '/' "/proj/node_modules/xy/lib/index.js").2
    (by decide)

/-- C7: the emitted length tests (the elements of `sortedLengths`, in
emission order) carry (first conjunct) for each distinct length the number
of stored `packageLocation` strings of exactly that length, are ordered
(second conjunct) by non-strictly descending occurrence count — i.e.
strictly descending between distinct counts — and (third conjunct) the
entries of any fixed occurrence count appear exactly in the order the
lengths were first encountered: filtering the emitted order at any count
gives the first-encounter-ordered count table (`locationLengthCounts`,
whose `jsSet` keeps the original position of an existing key) filtered at
that count.  This is the behaviour of the stable `Array.prototype.sort`
under the comparator `(a, b) => b[1] - a[1]`. -/
theorem C7_length_frequency_order (stores : Stores) :
    (∀ L c, (L, c) ∈ sortedLengths stores →
      c = (allPackageLocations stores).countP (fun l => l.length == L)) ∧
    (sortedLengths stores).Pairwise (fun a b => b.2 ≤ a.2) ∧
    (∀ c, (sortedLengths stores).filter (fun e => e.2 == c) =
      (locationLengthCounts stores).filter (fun e => e.2 == c)) := by
  refine ⟨?_, sortedLengths_sorted stores, fun c => filter_insertionSort_counts c _⟩
  intro L c h
  exact locationLengthCounts_count stores L c ((mem_sortedLengths stores (L, c)).1 h)

/-- Three registered locations: two of length 21 and one of length 6. -/
def wStores : Stores :=
  [(some "x", [(some "1.0", ⟨none, "/proj/node_modules/x/", []⟩)]),
   (some "y", [(some "2.0", ⟨none, "/proj/node_modules/y/", []⟩)]),
   (none, [(none, ⟨none, "/proj/", []⟩)])]

theorem C7_witness :
    (21, 2) ∈ sortedLengths wStores ∧
    2 = (allPackageLocations wStores).countP (fun l => l.length == 21) :=
  ⟨by decide, (C7_length_frequency_order wStores).1 21 2 (by decide)⟩

end PnpMap
